import Mathlib

/-!
# 1cLogConvertFromXMLltoCSV: the record transformation and bulk-load pipeline

A shallow embedding of `main.go`: the `Event` record, the construction of the
CSV rows, the `encoding/csv` writer over its `bufio.Writer` and the
intermediate file, the `encoding/csv` reader that parses the file back, and
the batch loop that binds every row positionally and sends the batch.

`main.go` does its work through Go's standard library.  The functions of
`encoding/csv` and `bufio` that it calls are embedded from the source of
those packages, method by method, for the configuration `main` sets
(`Comma = ';'`, `FieldsPerRecord = -1`, every other option at its zero
value).  The XML decoder and the ClickHouse driver are not embedded: the
decoded events are an input, and the driver is an oracle.

Go strings and byte slices are lists of bytes.  The external world (the
device that holds the intermediate file, the ClickHouse connection) is an
explicit environment record, so every run of `main` is a pure function of
the decoded event list, the destination identifier and that environment.
-/

set_option linter.dupNamespace false

namespace Convert1c

deriving instance DecidableEq for Except

/-! ## Data model -/

/-- A Go `string` or `[]byte`: a finite sequence of bytes. -/
abbrev GoString := List UInt8

/-- The bytes of a string literal of the source text (its UTF-8 encoding). -/
def utf8 (s : String) : GoString := s.toList.flatMap String.utf8EncodeChar

/-- The struct `Event` of `main.go` (lines 20-42): 21 string fields. -/
structure Event where
  Level : GoString
  Date : GoString
  ApplicationName : GoString
  ApplicationPresentation : GoString
  Event : GoString
  EventPresentation : GoString
  User : GoString
  UserName : GoString
  Computer : GoString
  Metadata : GoString
  MetadataPresentation : GoString
  Comment : GoString
  Data : GoString
  DataPresentation : GoString
  TransactionStatus : GoString
  TransactionID : GoString
  Connection : GoString
  Session : GoString
  ServerName : GoString
  Port : GoString
  SyncPort : GoString
deriving DecidableEq, Repr

/-- The names in the `headers` literal of `main` (lines 92-99), in source order. -/
def headerNames : List String :=
  ["DatabaseName",
   "Level", "Date", "ApplicationName", "ApplicationPresentation", "Event",
   "EventPresentation", "User", "UserName", "Computer", "Metadata",
   "MetadataPresentation", "Comment", "Data", "DataPresentation",
   "TransactionStatus", "TransactionID", "Connection", "Session",
   "ServerName", "Port", "SyncPort"]

/-- The slice `headers` that `main` hands to `writer.Write` (line 100). -/
def headers : List GoString := headerNames.map utf8

/-- The slice literal `record := []string{*dbName, event.Level, ...}` built in
the body of the write loop (lines 104-127). -/
def record (dbName : GoString) (event : Event) : List GoString :=
  [dbName,
   event.Level,
   event.Date,
   event.ApplicationName,
   event.ApplicationPresentation,
   event.Event,
   event.EventPresentation,
   event.User,
   event.UserName,
   event.Computer,
   event.Metadata,
   event.MetadataPresentation,
   event.Comment,
   event.Data,
   event.DataPresentation,
   event.TransactionStatus,
   event.TransactionID,
   event.Connection,
   event.Session,
   event.ServerName,
   event.Port,
   event.SyncPort]

/-- An input `<Event>` element: which child elements it has and their text.
The key is the element name of the `xml` tag of a field of `Event`. -/
abbrev Element := String → Option GoString

/-- The text of the child element `name` of `el`, the empty string (the zero
value of a Go string) when the element has no such child. -/
def childText (el : Element) (name : String) : GoString :=
  match el name with
  | some text => text
  | none => []

/-- What `xml.Decoder.Decode` stores for one `<Event>` element: the target
starts as the zero value, so a field whose tag names no child of the element
keeps the empty string, and a field whose child is present holds its text. -/
def unmarshalEvent (el : Element) : Event :=
  { Level := childText el "Level"
    Date := childText el "Date"
    ApplicationName := childText el "ApplicationName"
    ApplicationPresentation := childText el "ApplicationPresentation"
    Event := childText el "Event"
    EventPresentation := childText el "EventPresentation"
    User := childText el "User"
    UserName := childText el "UserName"
    Computer := childText el "Computer"
    Metadata := childText el "Metadata"
    MetadataPresentation := childText el "MetadataPresentation"
    Comment := childText el "Comment"
    Data := childText el "Data"
    DataPresentation := childText el "DataPresentation"
    TransactionStatus := childText el "TransactionStatus"
    TransactionID := childText el "TransactionID"
    Connection := childText el "Connection"
    Session := childText el "Session"
    ServerName := childText el "ServerName"
    Port := childText el "Port"
    SyncPort := childText el "SyncPort" }

/-! ## The intermediate file and `bufio.Writer` -/

/-- The intermediate file as the operating system holds it: the bytes written
so far and the number of bytes the device still accepts.  A write that does
not fit stores what fits and reports an error. -/
structure File where
  content : GoString
  space : Nat
deriving DecidableEq, Repr

/-- The method `(*os.File).Write`: the file afterwards, the count of bytes
written, and whether an error is returned. -/
def File.Write (f : File) (b : GoString) : File × Nat × Bool :=
  if b.length ≤ f.space then
    ({ content := f.content ++ b, space := f.space - b.length }, b.length, false)
  else
    ({ content := f.content ++ b.take f.space, space := 0 }, f.space, true)

/-- The constant `defaultBufSize` of package `bufio`, the size `csv.NewWriter`
gets from `bufio.NewWriter`. -/
def defaultBufSize : Nat := 4096

/-- A `bufio.Writer`: the sticky error `err` (true when it is not nil), the
buffered bytes `buf[0:n]`, and the underlying file `wr`. -/
structure BufWriter where
  err : Bool
  buf : GoString
  wr : File
deriving DecidableEq, Repr

/-- The method `(*bufio.Writer).Available`. -/
def BufWriter.Available (b : BufWriter) : Nat := defaultBufSize - b.buf.length

/-- The method `(*bufio.Writer).Buffered`. -/
def BufWriter.Buffered (b : BufWriter) : Nat := b.buf.length

/-- The method `(*bufio.Writer).Flush`; the returned error is not nil exactly
when `err` is set in the result. -/
def BufWriter.Flush (b : BufWriter) : BufWriter :=
  if b.err then b
  else if b.buf.length = 0 then b
  else
    match b.wr.Write b.buf with
    | (f, n, true) => { err := true, buf := b.buf.drop n, wr := f }
    | (f, _, false) => { err := false, buf := [], wr := f }

/-- The method `(*bufio.Writer).WriteByte`. -/
def BufWriter.WriteByte (b : BufWriter) (c : UInt8) : BufWriter :=
  if b.err then b
  else if b.Available ≤ 0 then
    let b1 := b.Flush
    if b1.err then b1 else { b1 with buf := b1.buf ++ [c] }
  else { b with buf := b.buf ++ [c] }

/-- The loop `for len(s) > b.Available() && b.err == nil` of
`(*bufio.Writer).WriteString`, the underlying `*os.File` being an
`io.StringWriter`: with an empty buffer the string goes to the file at once,
else the buffer is filled and flushed.  It returns the writer and the part of
`s` not yet taken.  The first argument bounds the iterations; the loop ends
by its condition after two at most (`writeStringLoop_exit`). -/
def BufWriter.writeStringLoop : Nat → BufWriter → GoString → BufWriter × GoString
  | 0, b, s => (b, s)
  | fuel + 1, b, s =>
    if s.length > b.Available ∧ b.err = false then
      if b.Buffered = 0 then
        match b.wr.Write s with
        | (f, n, e) => writeStringLoop fuel { b with err := e, wr := f } (s.drop n)
      else
        let n := min b.Available s.length
        writeStringLoop fuel ({ b with buf := b.buf ++ s.take n }).Flush (s.drop n)
    else (b, s)

/-- The method `(*bufio.Writer).WriteString`. -/
def BufWriter.WriteString (b : BufWriter) (s : GoString) : BufWriter :=
  match BufWriter.writeStringLoop (s.length + 2) b s with
  | (b1, s1) =>
    if b1.err then b1 else { b1 with buf := b1.buf ++ s1.take b1.Available }

/-! ## `csv.Writer` with `Comma = ';'` -/

/-- The field delimiter that `main` sets on the writer and on the reader. -/
def Comma : UInt8 := 59

/-- Whether `unicode.IsSpace` holds of the first rune of `field`: the white
space runes are U+0009..U+000D, U+0020, U+0085, U+00A0, U+1680,
U+2000..U+200A, U+2028, U+2029, U+202F, U+205F and U+3000, and a rune decodes
to one of them exactly when `field` starts with its UTF-8 encoding. -/
def firstRuneIsSpace : GoString → Bool
  | [] => false
  | c :: rest =>
    if (9 ≤ c ∧ c ≤ 13) ∨ c = 32 then true
    else if c = 0xC2 then
      match rest with
      | d :: _ => d = 0x85 ∨ d = 0xA0
      | [] => false
    else if c = 0xE1 then
      match rest with
      | d :: e :: _ => d = 0x9A ∧ e = 0x80
      | _ => false
    else if c = 0xE2 then
      match rest with
      | d :: e :: _ =>
        (d = 0x80 ∧ ((0x80 ≤ e ∧ e ≤ 0x8A) ∨ e = 0xA8 ∨ e = 0xA9 ∨ e = 0xAF))
          ∨ (d = 0x81 ∧ e = 0x9F)
      | _ => false
    else if c = 0xE3 then
      match rest with
      | d :: e :: _ => d = 0x80 ∧ e = 0x80
      | _ => false
    else false

/-- The method `(*csv.Writer).fieldNeedsQuotes` for the delimiter `Comma`. -/
def fieldNeedsQuotes (field : GoString) : Bool :=
  if field = [] then false
  else if field = [92, 46] then true
  else if field.any (fun c => c = 10 ∨ c = 13 ∨ c = 34 ∨ c = Comma) then true
  else firstRuneIsSpace field

/-- The call `strings.IndexAny(field, "\"\r\n")`, with `len(field)` standing
for the result `-1` as in `if i < 0 { i = len(field) }`. -/
def indexAny : GoString → Nat
  | [] => 0
  | c :: rest => if c = 34 ∨ c = 13 ∨ c = 10 then 0 else indexAny rest + 1

/-- The loop `for len(field) > 0` of `(*csv.Writer).Write` that writes the
body of a quoted field (`UseCRLF` is false in this program).  The first
argument bounds the iterations; every iteration takes a byte of the field at
least, so the length of the field is enough (`writeQuotedLoop_fuel`). -/
def writeQuotedLoop : Nat → BufWriter → GoString → BufWriter
  | 0, w, _ => w
  | fuel + 1, w, field =>
    if field.length > 0 then
      let i := indexAny field
      let w1 := w.WriteString (field.take i)
      if w1.err then w1
      else
        match field.drop i with
        | [] => writeQuotedLoop fuel w1 []
        | c :: rest =>
          let w2 :=
            if c = 34 then w1.WriteString [34, 34]
            else if c = 13 then w1.WriteByte 13
            else if c = 10 then w1.WriteByte 10
            else w1
          if w2.err then w2 else writeQuotedLoop fuel w2 rest
    else w

/-- One iteration of the loop `for n, field := range record` of
`(*csv.Writer).Write`; `first` says that `n = 0`. -/
def writeField (first : Bool) (w : BufWriter) (field : GoString) : BufWriter :=
  let w0 := if first then w else w.WriteByte Comma
  if w0.err then w0
  else if !fieldNeedsQuotes field then w0.WriteString field
  else
    let w1 := w0.WriteByte 34
    if w1.err then w1
    else
      let w2 := writeQuotedLoop field.length w1 field
      if w2.err then w2 else w2.WriteByte 34

/-- The loop `for n, field := range record` of `(*csv.Writer).Write`, which
returns at the first error. -/
def writeFields : Bool → BufWriter → List GoString → BufWriter
  | _, w, [] => w
  | first, w, field :: rest =>
    let w1 := writeField first w field
    if w1.err then w1 else writeFields false w1 rest

/-- A `csv.Writer` as `main` configures it (`Comma = ';'`, `UseCRLF` false):
its `bufio.Writer`, and as a ghost field the arguments of the calls of `Write`
made so far, in call order. -/
structure Writer where
  w : BufWriter
  handed : List (List GoString)
deriving DecidableEq, Repr

/-- The method `(*csv.Writer).Write` (the delimiter `;` is valid, so the check
`validDelim` passes); the returned error is not nil exactly when `w.err` is
set in the result. -/
def Writer.Write (wr : Writer) (rec : List GoString) : Writer :=
  let w1 := writeFields true wr.w rec
  { w := if w1.err then w1 else w1.WriteByte 10
    handed := wr.handed ++ [rec] }

/-- The method `(*csv.Writer).Flush`. -/
def Writer.Flush (wr : Writer) : Writer := { wr with w := wr.w.Flush }

/-- The call `csv.NewWriter(csvFile)` on the file `os.Create` returned. -/
def NewWriter (f : File) : Writer :=
  { w := { err := false, buf := [], wr := f }, handed := [] }

/-- The statements of `main` from `writer.Write(headers)` to the end of the
loop `for _, event := range eventLog.Events` (lines 100-129); the results of
the calls of `Write` are discarded, as in the source. -/
def writeRows (wr : Writer) (dbName : GoString) (events : List Event) : Writer :=
  events.foldl (fun acc event => acc.Write (record dbName event)) (wr.Write headers)

/-! ## `csv.Reader` with `Comma = ';'` and `FieldsPerRecord = -1`

The reader runs with `LazyQuotes`, `TrimLeadingSpace` and `Comment` at their
zero values.  Reading the open file is taken not to fail, so the only error
`readLine` returns is `io.EOF`; the positions kept for error messages are
left out.  The fields of a record are collected as a list, where the
package appends them to one buffer and cuts it at the recorded indexes.
Every loop of the package is a function with a bound on its iterations, and
`CsvError.outOfFuel` is the result when the bound is reached; by
`ReadAll_total` it never is.
-/

/-- The errors `ReadAll` can return: `csv.ErrBareQuote` and `csv.ErrQuote`
(wrapped in a `ParseError` in Go), and the bound of a loop of this model. -/
inductive CsvError where
  | ErrBareQuote
  | ErrQuote
  | outOfFuel
deriving DecidableEq, Repr

/-- The calls `r.r.ReadSlice('\n')` of `readLine`, repeated while the buffer
is full: the bytes up to and including the first line feed, the input after
them, and whether the end of the input was hit before a line feed. -/
def readSlice : GoString → GoString × GoString × Bool
  | [] => ([], [], true)
  | c :: rest =>
    if c = 10 then ([c], rest, false)
    else
      match readSlice rest with
      | (line, rest1, eof) => (c :: line, rest1, eof)

/-- The step of `readLine` commented "For backwards compatibility, drop
trailing \r before EOF": `if line[readSize-1] == '\r' { line = line[:readSize-1] }`. -/
def dropFinalCR (line : GoString) : GoString :=
  if line.getLast? = some 13 then line.dropLast else line

/-- The step of `readLine` commented "Normalize \r\n to \n on all input
lines": `if n := len(line); n >= 2 && line[n-2] == '\r' && line[n-1] == '\n'`
then `line[n-2] = '\n'` and `line = line[:n-1]`. -/
def normalizeCRLF (line : GoString) : GoString :=
  if line.length ≥ 2 ∧ line.get? (line.length - 2) = some 13
      ∧ line.get? (line.length - 1) = some 10
  then line.take (line.length - 2) ++ [10] else line

/-- The method `(*csv.Reader).readLine`: the line, the input left, and
whether the error is `io.EOF`, which it is only when nothing was read. -/
def readLine (input : GoString) : GoString × GoString × Bool :=
  match readSlice input with
  | (line0, rest, eof) =>
    if line0.length > 0 ∧ eof = true then (normalizeCRLF (dropFinalCR line0), rest, false)
    else (normalizeCRLF line0, rest, eof)

/-- The function `lengthNL` of package `csv`. -/
def lengthNL (b : GoString) : Nat :=
  if b.length > 0 ∧ b.getLast? = some 10 then 1 else 0

/-- The calls `bytes.IndexByte(line, c)` and, for the one-byte delimiter,
`bytes.IndexRune(line, r.Comma)`; `none` stands for `-1`. -/
def indexByte (c : UInt8) : GoString → Option Nat
  | [] => none
  | d :: rest => if d = c then some 0 else (indexByte c rest).map (· + 1)

/-- The first loop of `readRecord`, which reads lines and skips the empty
ones: `none` for `io.EOF`, else the line and the input left. -/
def nextLine : Nat → GoString → Except CsvError (Option (GoString × GoString))
  | 0, _ => .error .outOfFuel
  | fuel + 1, input =>
    match readLine input with
    | (line, rest, errRead) =>
      if errRead = false ∧ line.length = lengthNL line then nextLine fuel rest
      else if errRead then .ok none
      else .ok (some (line, rest))

/-- How the inner loop of `readRecord` over a quoted field ends. -/
inductive QuotedEnd where
  /-- The sequence quote, delimiter: `continue parseField` with the line and input left. -/
  | next (field line rest : GoString)
  /-- The sequence quote, end of line: `break parseField`. -/
  | last (field rest : GoString)
  /-- An error of the reader. -/
  | fail (e : CsvError)
deriving DecidableEq, Repr

/-- The inner `for` loop of `readRecord` for a quoted field, entered after the
opening quote: `line` is the rest of the current line, `rest` the input not
yet read, `field` the bytes of the field collected so far.  With a quote at
index `i` of the line, the bytes before it join the field and the switch on
the next rune decides: a second quote joins the field, the delimiter ends the
field, the end of the line ends the record, anything else is `ErrQuote`.
Without a quote, a line that is not empty joins the field whole and the next
line is read; an empty line is the end of the input inside the quotes,
`ErrQuote`. -/
def quotedLoop : Nat → GoString → GoString → GoString → QuotedEnd
  | 0, _, _, _ => .fail .outOfFuel
  | fuel + 1, line, rest, field =>
    match indexByte 34 line with
    | some i =>
      let field1 := field ++ line.take i
      let line1 := line.drop (i + 1)
      if line1.head? = some 34 then quotedLoop fuel (line1.drop 1) rest (field1 ++ [34])
      else if line1.head? = some Comma then .next field1 (line1.drop 1) rest
      else if lengthNL line1 = line1.length then .last field1 rest
      else .fail .ErrQuote
    | none =>
      if line.length > 0 then
        match readLine rest with
        | (line1, rest1, _) => quotedLoop fuel line1 rest1 (field ++ line)
      else .fail .ErrQuote

/-- The loop `parseField` of `readRecord`: `fields` are the fields of the
record completed so far.  The result is the record and the input left.  The
first branch is `if len(line) == 0 || line[0] != '"'`, the field without
quotes, which runs to the delimiter or to the end of the line and must hold
no quote; the second is the quoted field. -/
def parseFields : Nat → GoString → GoString → List GoString →
    Except CsvError (List GoString × GoString)
  | 0, _, _, _ => .error .outOfFuel
  | fuel + 1, line, rest, fields =>
    if line.length = 0 ∨ line.head? ≠ some 34 then
      match indexByte Comma line with
      | some i =>
        let field := line.take i
        if (indexByte 34 field).isSome then .error .ErrBareQuote
        else parseFields fuel (line.drop (i + 1)) rest (fields ++ [field])
      | none =>
        let field := line.take (line.length - lengthNL line)
        if (indexByte 34 field).isSome then .error .ErrBareQuote
        else .ok (fields ++ [field], rest)
    else
      match quotedLoop (line.length + rest.length + 1) (line.drop 1) rest [] with
      | .next field line1 rest1 => parseFields fuel line1 rest1 (fields ++ [field])
      | .last field rest1 => .ok (fields ++ [field], rest1)
      | .fail e => .error e

/-- The method `(*csv.Reader).readRecord`: `none` for `io.EOF`, else the
record and the input left. -/
def readRecord (input : GoString) : Except CsvError (Option (List GoString × GoString)) :=
  match nextLine (input.length + 1) input with
  | .error e => .error e
  | .ok none => .ok none
  | .ok (some (line, rest)) =>
    match parseFields (line.length + rest.length + 1) line rest [] with
    | .error e => .error e
    | .ok res => .ok (some res)

/-- The loop of `(*csv.Reader).ReadAll`. -/
def readAllLoop : Nat → GoString → List (List GoString) →
    Except CsvError (List (List GoString))
  | 0, _, _ => .error .outOfFuel
  | fuel + 1, input, records =>
    match readRecord input with
    | .error e => .error e
    | .ok none => .ok records
    | .ok (some (rec, rest)) => readAllLoop fuel rest (records ++ [rec])

/-- The method `(*csv.Reader).ReadAll` on a reader over `input`. -/
def ReadAll (input : GoString) : Except CsvError (List (List GoString)) :=
  readAllLoop (input.length + 1) input []

/-! ## The ClickHouse statements -/

/-- The table name `fmt.Sprintf("%s_events", *dbName)`. -/
def tableName (dbName : GoString) : GoString := dbName ++ utf8 "_events"

/-- The file name `fmt.Sprintf("%s_eventlog.csv", *dbName)`. -/
def csvFileName (dbName : GoString) : GoString := dbName ++ utf8 "_eventlog.csv"

/-- The format string of `query` (lines 151-177) before its `%s`. -/
def createHead : String := "\n\t\tCREATE TABLE IF NOT EXISTS "

/-- The format string of `query` (lines 151-177) after its `%s`. -/
def createBody : String :=
  " (\n\t\t\tDatabaseName String,\n\t\t\tLevel String,\n\t\t\tDate DateTime,\n\t\t\tApplicationName String,\n\t\t\tApplicationPresentation String,\n\t\t\tEvent String,\n\t\t\tEventPresentation String,\n\t\t\tUser String,\n\t\t\tUserName String,\n\t\t\tComputer String,\n\t\t\tMetadata String,\n\t\t\tMetadataPresentation String,\n\t\t\tComment String,\n\t\t\tData String,\n\t\t\tDataPresentation String,\n\t\t\tTransactionStatus String,\n\t\t\tTransactionID String,\n\t\t\tConnection String,\n\t\t\tSession String,\n\t\t\tServerName String,\n\t\t\tPort UInt16,\n\t\t\tSyncPort UInt16\n\t\t) ENGINE = MergeTree()\n\t\tORDER BY Date;\n\t"

/-- The statement `query` that `conn.Exec` runs. -/
def createQuery (table : GoString) : GoString :=
  utf8 createHead ++ table ++ utf8 createBody

/-- The format string of `insertQuery` (lines 191-199) before its `%s`. -/
def insertHead : String := "\n\t\tINSERT INTO "

/-- The format string of `insertQuery` (lines 191-199) after its `%s`. -/
def insertBody : String :=
  " (\n\t\t\tDatabaseName, Level, Date, ApplicationName, ApplicationPresentation, Event,\n\t\t\tEventPresentation, User, UserName, Computer, Metadata,\n\t\t\tMetadataPresentation, Comment, Data, DataPresentation,\n\t\t\tTransactionStatus, TransactionID, Connection, Session,\n\t\t\tServerName, Port, SyncPort\n\t\t) VALUES (?, ?, ?, ?, ?, ?, ?, ?, ?, ?, ?, ?, ?, ?, ?, ?, ?, ?, ?, ?, ?, ?)\n\t"

/-- The statement `insertQuery` that `conn.PrepareBatch` prepares. -/
def insertQuery (table : GoString) : GoString :=
  utf8 insertHead ++ table ++ utf8 insertBody

/-- Whether a byte is white space of a statement: tab, line feed, carriage
return or blank. -/
def isBlank (c : UInt8) : Bool := c = 9 ∨ c = 10 ∨ c = 13 ∨ c = 32

/-- The words of a text: its maximal runs of bytes other than white space
(an empty word stands between two bytes of white space). -/
def wordsOf : GoString → List GoString
  | [] => []
  | c :: rest =>
    if isBlank c then [] :: wordsOf rest
    else
      match wordsOf rest with
      | [] => [[c]]
      | w :: ws => (c :: w) :: ws

/-- The text of a statement from its first `(` on. -/
def fromParen (query : GoString) : GoString := query.dropWhile (· ≠ 40)

/-- The column list of a statement as the server reads it: the text between
the first `(` of the statement and the next `)`, cut at the commas, each item
as the list of its words. -/
def sqlColumns (query : GoString) : List (List GoString) :=
  ((((fromParen query).drop 1).takeWhile (· ≠ 41)).splitOn 44).map
    (fun item => (wordsOf item).filter (· ≠ []))

/-! ## The run of `main` -/

/-- The lines `main` prints, one constructor per `fmt.Println` or
`fmt.Printf` of the part of `main` that starts at `os.Create`. -/
inductive Msg where
  /-- Line 82, after `os.Create` failed. -/
  | createFailed
  /-- Line 131: the data were written to the file with the delimiter. -/
  | written (file : GoString)
  /-- Line 143, after `clickhouse.Open` failed. -/
  | connectFailed
  /-- Line 186, after `conn.Exec` failed. -/
  | createTableFailed
  /-- Line 204, after `os.Open` failed. -/
  | openFailed
  /-- Line 215, after `reader.ReadAll` failed. -/
  | readFailed (e : CsvError)
  /-- Line 221, after `conn.PrepareBatch` failed. -/
  | prepareFailed
  /-- Line 251, after `batch.Append` failed: the number printed for `%d`. -/
  | appendFailed (row : Nat)
  /-- Line 259, after `batch.Send` failed. -/
  | sendFailed
  /-- Line 263: the data were loaded into the table. -/
  | loaded (table : GoString)
deriving DecidableEq, Repr

/-- The calls `main` makes on the ClickHouse driver, each with whether it
returned without error. -/
inductive Call where
  | Open (ok : Bool)
  | Exec (query : GoString) (ok : Bool)
  | PrepareBatch (query : GoString) (ok : Bool)
  | Append (args : List GoString) (ok : Bool)
  | Send (ok : Bool)
deriving DecidableEq, Repr

/-- The run-time panics of the part of `main` modelled here. -/
inductive Panic where
  /-- The slice expression `records[1:]` on a slice of length `len < 1`. -/
  | sliceBounds (low len : Nat)
  /-- An index expression `record[i]` with `i` not below `len`. -/
  | indexOutOfRange (i len : Nat)
deriving DecidableEq, Repr

/-- The world outside the program: the room on the device holding the
intermediate file, and the answer of every call that can fail.  `appendOk i
args` is whether the call of `batch.Append` in iteration `i` (from 0) with
the 22 arguments `args` returns nil. -/
structure Env where
  space : Nat
  createOk : Bool
  connectOk : Bool
  execOk : Bool
  openOk : Bool
  prepareOk : Bool
  appendOk : Nat → List GoString → Bool
  sendOk : Bool

/-- The index expression `record[i]`. -/
def index (rec : List GoString) (i : Nat) : Except Panic GoString :=
  match rec.get? i with
  | some v => .ok v
  | none => .error (.indexOutOfRange i rec.length)

/-- The 22 arguments `record[0], ..., record[21]` of the call of
`batch.Append` (lines 226-249), evaluated from left to right. -/
def appendArgs (rec : List GoString) : Except Panic (List GoString) :=
  [0, 1, 2, 3, 4, 5, 6, 7, 8, 9, 10, 11, 12, 13, 14, 15, 16, 17, 18, 19, 20, 21].mapM
    (index rec)

/-- What the program has done from some point on: the lines printed, the
driver calls made, and the panic that ended it, if one did. -/
structure Trace where
  stdout : List Msg
  calls : List Call
  panic : Option Panic
deriving DecidableEq, Repr

/-- The loop `for i, record := range records[1:]` (lines 225-254) from
iteration `i` on, followed by `batch.Send` and the last lines of `main`
(lines 256-263); `rows` are the rows the loop still has to visit. -/
def batchLoop (env : Env) (table : GoString) : Nat → List (List GoString) → Trace
  | _, [] =>
    if env.sendOk then { stdout := [.loaded table], calls := [.Send true], panic := none }
    else { stdout := [.sendFailed], calls := [.Send false], panic := none }
  | i, rec :: rest =>
    match appendArgs rec with
    | .error p => { stdout := [], calls := [], panic := some p }
    | .ok args =>
      if env.appendOk i args then
        let t := batchLoop env table (i + 1) rest
        { t with calls := .Append args true :: t.calls }
      else
        { stdout := [.appendFailed (i + 1)], calls := [.Append args false], panic := none }

/-- The slice expression `records[1:]`. -/
def sliceFrom1 (records : List (List GoString)) : Except Panic (List (List GoString)) :=
  if 1 ≤ records.length then .ok (records.drop 1)
  else .error (.sliceBounds 1 records.length)

/-- The Store Loader, lines 133-263 of `main`: connect, create the table,
open and read the intermediate file, whose bytes at that moment are
`fileNow`, prepare the batch, bind the rows and send. -/
def load (env : Env) (dbName : GoString) (fileNow : GoString) : Trace :=
  if !env.connectOk then
    { stdout := [.connectFailed], calls := [.Open false], panic := none }
  else if !env.execOk then
    { stdout := [.createTableFailed]
      calls := [.Open true, .Exec (createQuery (tableName dbName)) false]
      panic := none }
  else
    let done : List Call := [.Open true, .Exec (createQuery (tableName dbName)) true]
    if !env.openOk then { stdout := [.openFailed], calls := done, panic := none }
    else
      match ReadAll fileNow with
      | .error e => { stdout := [.readFailed e], calls := done, panic := none }
      | .ok records =>
        if !env.prepareOk then
          { stdout := [.prepareFailed]
            calls := done ++ [.PrepareBatch (insertQuery (tableName dbName)) false]
            panic := none }
        else
          let prepared := done ++ [.PrepareBatch (insertQuery (tableName dbName)) true]
          match sliceFrom1 records with
          | .error p => { stdout := [], calls := prepared, panic := some p }
          | .ok rows =>
            let t := batchLoop env (tableName dbName) 0 rows
            { t with calls := prepared ++ t.calls }

/-- A run of `main` from `os.Create` on: what it printed and called, the
state of the CSV writer when the write loop had finished, the bytes of the
intermediate file at the moment the Store Loader read it, and the file when
`main` is left, that is after the deferred `writer.Flush()`. -/
structure Run where
  trace : Trace
  writer : Option Writer
  fileAtRead : GoString
  fileAtExit : GoString
deriving DecidableEq, Repr

/-- The function `main` from line 77 on, for the decoded `eventLog.Events`
and the value of the flag `-b`.  `os.Create` truncates the file; the calls
`writer.Write` discard their results; `defer writer.Flush()` runs when `main`
returns or panics, hence after the Store Loader. -/
def main (env : Env) (dbName : GoString) (events : List Event) : Run :=
  if !env.createOk then
    { trace := { stdout := [.createFailed], calls := [], panic := none }
      writer := none, fileAtRead := [], fileAtExit := [] }
  else
    let writer := writeRows (NewWriter { content := [], space := env.space }) dbName events
    let t := load env dbName writer.w.wr.content
    { trace := { t with stdout := .written (csvFileName dbName) :: t.stdout }
      writer := some writer
      fileAtRead := writer.w.wr.content
      fileAtExit := writer.Flush.w.wr.content }

/-! ## Definitions used to state the properties -/

/-- The selector expression `event.<name>` for a field name of the struct
`Event`; the name `DatabaseName` is no field of it. -/
def fieldOf (event : Convert1c.Event) (name : String) : Option GoString :=
  match name with
  | "Level" => some event.Level
  | "Date" => some event.Date
  | "ApplicationName" => some event.ApplicationName
  | "ApplicationPresentation" => some event.ApplicationPresentation
  | "Event" => some event.Event
  | "EventPresentation" => some event.EventPresentation
  | "User" => some event.User
  | "UserName" => some event.UserName
  | "Computer" => some event.Computer
  | "Metadata" => some event.Metadata
  | "MetadataPresentation" => some event.MetadataPresentation
  | "Comment" => some event.Comment
  | "Data" => some event.Data
  | "DataPresentation" => some event.DataPresentation
  | "TransactionStatus" => some event.TransactionStatus
  | "TransactionID" => some event.TransactionID
  | "Connection" => some event.Connection
  | "Session" => some event.Session
  | "ServerName" => some event.ServerName
  | "Port" => some event.Port
  | "SyncPort" => some event.SyncPort
  | _ => none

/-- The event element of the scenario: `Level`, `Date` and `Port` only. -/
def scenarioElement : Element := fun name =>
  if name = "Level" then some (utf8 "Error")
  else if name = "Date" then some (utf8 "2024-01-01T10:00:00")
  else if name = "Port" then some (utf8 "1541")
  else none

/-- An environment in which nothing fails and the device has room for
`space` bytes. -/
def healthy (space : Nat) : Env :=
  { space := space, createOk := true, connectOk := true, execOk := true, openOk := true
    prepareOk := true, appendOk := fun _ _ => true, sendOk := true }

/-- An environment in which only the second call of `Append` fails. -/
def failSecond : Env :=
  { space := 1000, createOk := true, connectOk := true, execOk := true, openOk := true
    prepareOk := true, appendOk := fun i _ => decide (i ≠ 1), sendOk := true }

/-- A data row of 22 fields, all empty but the first. -/
def sampleRow (first : String) : List GoString := utf8 first :: List.replicate 21 []

/-- An intermediate file with a header line and three data rows of 22 fields. -/
def threeRowFile : GoString :=
  utf8 "h\na;;;;;;;;;;;;;;;;;;;;;\nb;;;;;;;;;;;;;;;;;;;;;\nc;;;;;;;;;;;;;;;;;;;;;\n"

/-- The body of a quoted field as `Write` emits it: every quote doubled,
every other byte as it is. -/
def quoteBody : GoString → GoString
  | [] => []
  | c :: rest => if c = 34 then 34 :: 34 :: quoteBody rest else c :: quoteBody rest

/-- The bytes `Write` emits for one field: the field itself, or its quoted
body between two quotes when `fieldNeedsQuotes` holds. -/
def fieldBytes (field : GoString) : GoString :=
  if fieldNeedsQuotes field then 34 :: quoteBody field ++ [34] else field

/-- The bytes `Write` emits for the fields of a record, a delimiter before
every field but the first. -/
def fieldsBytes : Bool → List GoString → GoString
  | _, [] => []
  | first, field :: rest =>
    (if first then [] else [Comma]) ++ fieldBytes field ++ fieldsBytes false rest

/-- The line `Write` emits for a record. -/
def recordBytes (rec : List GoString) : GoString := fieldsBytes true rec ++ [10]

/-- The text a writer emits for a sequence of rows: their lines in order. -/
def csvBytes (rows : List (List GoString)) : GoString := rows.flatMap recordBytes

/-- All the bytes a `bufio.Writer` has taken and not lost: those in the file
followed by those in the buffer. -/
def BufWriter.out (b : BufWriter) : GoString := b.wr.content ++ b.buf

/-- The writer has no error, its buffer is within its size, and the device
has room for the buffered bytes and `k` more. -/
def BufWriter.Room (b : BufWriter) (k : Nat) : Prop :=
  b.err = false ∧ b.buf.length ≤ defaultBufSize ∧ b.buf.length + k ≤ b.wr.space

/-- What the reader returns for a field the writer quoted: the field with
every carriage return that stands directly before a line feed removed. -/
def dropCR : GoString → GoString
  | [] => []
  | c :: rest =>
    if c = 13 ∧ rest.head? = some 10 then dropCR rest else c :: dropCR rest

/-- The line `readLine` returns and the input it leaves, by recursion on the
input: the bytes up to the first line feed, with `\r\n` read as `\n` and a
carriage return at the very end of the input dropped. -/
def lineOf : GoString → GoString × GoString
  | [] => ([], [])
  | c :: t =>
    if c = 10 then ([10], t)
    else if c = 13 ∧ t.head? = some 10 then ([10], t.drop 1)
    else if c = 13 ∧ t = [] then ([], [])
    else (c :: (lineOf t).1, (lineOf t).2)

/-- The scenario event with the comment `a\r\nb`. -/
def crlfEvent : Event := { unmarshalEvent scenarioElement with Comment := utf8 "a\r\nb" }

/-- The scenario event with the comment `a\nb`. -/
def lfEvent : Event := { unmarshalEvent scenarioElement with Comment := utf8 "a\nb" }

/-- The scenario event with a comment of 5000 letters `x`. -/
def longEvent : Event :=
  { unmarshalEvent scenarioElement with Comment := List.replicate 5000 120 }

/-- The run of the scenario: one event, nothing fails, room for 1000 bytes. -/
def scenarioRun : Run := main (healthy 1000) (utf8 "mybase") [unmarshalEvent scenarioElement]

/-- A run in which the device accepts 100 bytes only and the one event has a
comment of 5000 bytes; everything else succeeds. -/
def diskFullRun : Run := main (healthy 100) (utf8 "db") [longEvent]

/-- A run in which nothing fails, the device has room for 100000 bytes, and
the one event has a comment of 5000 bytes. -/
def truncatedRun : Run := main (healthy 100000) (utf8 "db") [longEvent]

/-- The header line of the intermediate file. -/
def headerLine : String :=
  "DatabaseName;Level;Date;ApplicationName;ApplicationPresentation;Event;EventPresentation;User;UserName;Computer;Metadata;MetadataPresentation;Comment;Data;DataPresentation;TransactionStatus;TransactionID;Connection;Session;ServerName;Port;SyncPort\n"

/-! ## Theorems -/

/-! ### Binding the fields of a row -/

/-- An index expression within the length of the row yields the field there. -/
theorem index_of_lt (rec : List GoString) (i : Nat) (h : i < rec.length) :
    index rec i = .ok (rec.getD i []) := by
  unfold index
  simp [List.getD, List.getElem?_eq_getElem h]

/-- An index expression at or past the length of the row panics. -/
theorem index_of_ge (rec : List GoString) (i : Nat) (h : rec.length ≤ i) :
    index rec i = .error (.indexOutOfRange i rec.length) := by
  unfold index
  simp [List.getElem?_eq_none h]

/-- Index expressions that are all within the length of the row yield the
fields at those indexes, in order. -/
theorem mapM_index_of_lt (rec : List GoString) (idxs : List Nat)
    (h : ∀ i ∈ idxs, i < rec.length) :
    idxs.mapM (index rec) = .ok (idxs.map (fun i => rec.getD i [])) := by
  induction idxs with
  | nil => rfl
  | cons i rest ih =>
    rw [List.mapM_cons, index_of_lt rec i (h i (List.mem_cons_self _ _)),
      ih (fun j hj => h j (List.mem_cons_of_mem _ hj))]
    rfl

/-- The arguments of `Append` are the index expressions 0 to 21, in order. -/
theorem appendArgs_eq (rec : List GoString) :
    appendArgs rec = (List.range 22).mapM (index rec) := rfl

/-- A row with at least 22 fields binds: the arguments of `Append` are its
first 22 fields in order. -/
theorem appendArgs_of_le (rec : List GoString) (h : 22 ≤ rec.length) :
    appendArgs rec = .ok (rec.take 22) := by
  rw [appendArgs_eq, mapM_index_of_lt rec _ (fun i hi => by
    have := List.mem_range.mp hi; omega)]
  congr 1
  apply List.ext_getElem?
  intro k
  by_cases hk : k < 22
  · have hk2 : k < rec.length := by omega
    simp [List.getElem?_map, List.getElem?_range hk, List.getElem?_take, hk, List.getD,
      List.getElem?_eq_getElem hk2]
  · have hk3 : 22 ≤ k := by omega
    rw [List.getElem?_eq_none (by simpa using hk3), List.getElem?_eq_none (by simp; omega)]

/-- A row with fewer than 22 fields panics at the first index expression that
is out of range, `record[len(record)]`. -/
theorem appendArgs_of_lt (rec : List GoString) (h : rec.length < 22) :
    appendArgs rec = .error (.indexOutOfRange rec.length rec.length) := by
  have hsplit : List.range 22
      = List.range rec.length ++ (rec.length :: List.range' (rec.length + 1) (21 - rec.length)) := by
    apply List.ext_getElem?
    intro k
    by_cases hk : k < 22
    · rw [List.getElem?_range hk]
      by_cases hk1 : k < rec.length
      · rw [List.getElem?_append_left (by simpa using hk1), List.getElem?_range hk1]
      · rw [List.getElem?_append_right (by simpa using hk1)]
        simp only [List.length_range]
        by_cases hk2 : k = rec.length
        · subst hk2; simp
        · obtain ⟨j, hj⟩ : ∃ j, k - rec.length = j + 1 := ⟨k - rec.length - 1, by omega⟩
          rw [hj, List.getElem?_cons_succ, List.getElem?_range' _ _ (by omega)]
          congr 1; omega
    · rw [List.getElem?_eq_none (by simp; omega), List.getElem?_eq_none (by simp; omega)]
  rw [appendArgs_eq, hsplit, List.mapM_append,
    mapM_index_of_lt rec _ (fun i hi => List.mem_range.mp hi), List.mapM_cons,
    index_of_ge rec rec.length (le_refl _)]
  rfl

/-- The arguments of `Append` are defined exactly for the rows of at least 22
fields, and then they are the first 22 fields. -/
theorem appendArgs_ok_iff (rec args : List GoString) :
    appendArgs rec = .ok args ↔ 22 ≤ rec.length ∧ args = rec.take 22 := by
  constructor
  · intro h
    by_cases hl : 22 ≤ rec.length
    · rw [appendArgs_of_le rec hl] at h
      exact ⟨hl, (Except.ok.inj h).symm⟩
    · rw [appendArgs_of_lt rec (by omega)] at h
      cases h
  · rintro ⟨hl, rfl⟩
    exact appendArgs_of_le rec hl

/-- The position of every named field in the row of a decoded element: the
text of the child of that name, the empty string when there is none. -/
theorem record_unmarshal_get (dbName : GoString) (el : Element) (k : Nat) (X : String)
    (hk : 1 ≤ k) (hX : headerNames.get? k = some X) :
    (record dbName (unmarshalEvent el)).get? k = some (childText el X) := by
  have hk22 : k < 22 := by
    by_contra hge
    have hnone : headerNames.get? k = none := by
      rw [List.get?_eq_none]; simp [headerNames]; omega
    rw [hnone] at hX; cases hX
  interval_cases k <;> simp [headerNames] at hX <;> subst hX <;> rfl

/-! ### The batch loop -/

/-- The three ways the batch loop can end, from iteration `i` on over `rows`:
all rows bound and appended and `Send` called; or `Append` failed at the row
at offset `k`, reported as `i + k + 1`, and nothing was called after it; or a
row had too few fields and the index expression panicked. -/
theorem batchLoop_cases (env : Env) (table : GoString) (rows : List (List GoString)) :
    ∀ i : Nat,
      ((∀ r ∈ rows, 22 ≤ r.length) ∧
        batchLoop env table i rows =
          { stdout := [if env.sendOk then Msg.loaded table else Msg.sendFailed]
            calls := rows.map (fun r => Call.Append (r.take 22) true) ++ [Call.Send env.sendOk]
            panic := none }) ∨
      (∃ k : Nat, ∃ h : k < rows.length,
        env.appendOk (i + k) (rows[k].take 22) = false ∧
        batchLoop env table i rows =
          { stdout := [Msg.appendFailed (i + k + 1)]
            calls := (rows.take k).map (fun r => Call.Append (r.take 22) true)
              ++ [Call.Append (rows[k].take 22) false]
            panic := none }) ∨
      (∃ k : Nat, ∃ h : k < rows.length,
        rows[k].length < 22 ∧
        batchLoop env table i rows =
          { stdout := []
            calls := (rows.take k).map (fun r => Call.Append (r.take 22) true)
            panic := some (Panic.indexOutOfRange rows[k].length rows[k].length) }) := by
  induction rows with
  | nil =>
    intro i
    left
    refine ⟨by simp, ?_⟩
    cases hs : env.sendOk <;> simp [batchLoop, hs]
  | cons r rest ih =>
    intro i
    by_cases hl : 22 ≤ r.length
    · by_cases hok : env.appendOk i (r.take 22) = true
      · have hstep : batchLoop env table i (r :: rest)
            = { batchLoop env table (i + 1) rest with
                calls := Call.Append (r.take 22) true :: (batchLoop env table (i + 1) rest).calls } := by
          simp [batchLoop, appendArgs_of_le r hl, hok]
        rcases ih (i + 1) with ⟨hall, heq⟩ | ⟨k, hk, hfail, heq⟩ | ⟨k, hk, hshort, heq⟩
        · left
          refine ⟨by simpa using ⟨hl, hall⟩, ?_⟩
          rw [hstep, heq]; simp
        · right; left
          refine ⟨k + 1, by simpa using hk, ?_, ?_⟩
          · simpa [Nat.add_assoc, Nat.add_comm 1 k] using hfail
          · rw [hstep, heq]; simp [Nat.add_assoc, Nat.add_comm 1 k]
        · right; right
          refine ⟨k + 1, by simpa using hk, by simpa using hshort, ?_⟩
          rw [hstep, heq]; simp
      · right; left
        have hok2 : env.appendOk i (r.take 22) = false := by simpa using hok
        refine ⟨0, by simp, by simpa using hok2, ?_⟩
        simp [batchLoop, appendArgs_of_le r hl, hok2]
    · right; right
      refine ⟨0, by simp, by simpa using hl, ?_⟩
      simp [batchLoop, appendArgs_of_lt r (by omega)]

/-- When every row has its 22 fields, the batch loop does not panic. -/
theorem batchLoop_no_panic (env : Env) (table : GoString) (rows : List (List GoString))
    (h : ∀ r ∈ rows, 22 ≤ r.length) (i : Nat) :
    (batchLoop env table i rows).panic = none := by
  rcases batchLoop_cases env table rows i with
    ⟨_, heq⟩ | ⟨k, hk, _, heq⟩ | ⟨k, hk, hshort, _⟩
  · rw [heq]
  · rw [heq]
  · have := h rows[k] (List.getElem_mem hk)
    omega

/-- The Store Loader once the file is read into `records` with at least the
header row, when connect, create table, open and prepare succeed. -/
theorem load_of_read (env : Env) (dbName fileNow : GoString) (hdr : List GoString)
    (rows : List (List GoString))
    (hconn : env.connectOk = true) (hexec : env.execOk = true) (hopen : env.openOk = true)
    (hprep : env.prepareOk = true) (hread : ReadAll fileNow = .ok (hdr :: rows)) :
    load env dbName fileNow =
      { batchLoop env (tableName dbName) 0 rows with
        calls := [Call.Open true, Call.Exec (createQuery (tableName dbName)) true,
                  Call.PrepareBatch (insertQuery (tableName dbName)) true]
          ++ (batchLoop env (tableName dbName) 0 rows).calls } := by
  simp [load, hconn, hexec, hopen, hprep, hread, sliceFrom1]

/-- No call of `Send` is among successful calls of `Append`. -/
theorem send_not_mem_appends (l : List (List GoString)) (ok : Bool) :
    Call.Send ok ∉ l.map (fun r => Call.Append (r.take 22) true) := by
  intro h
  obtain ⟨r, _, hr⟩ := List.mem_map.mp h
  cases hr

/-- No failed call of `Append` is among successful calls of `Append`. -/
theorem failed_not_mem_appends (l : List (List GoString)) (args : List GoString) :
    Call.Append args false ∉ l.map (fun r => Call.Append (r.take 22) true) := by
  intro h
  obtain ⟨r, _, hr⟩ := List.mem_map.mp h
  cases hr

/-- Every call of `Append` of the batch loop binds the first 22 fields of a
row that has them. -/
theorem batchLoop_append_mem (env : Env) (table : GoString) (rows : List (List GoString))
    (i : Nat) (args : List GoString) (ok : Bool)
    (h : Call.Append args ok ∈ (batchLoop env table i rows).calls) :
    ∃ r ∈ rows, 22 ≤ r.length ∧ args = r.take 22 := by
  induction rows generalizing i with
  | nil =>
    cases hs : env.sendOk <;> simp [batchLoop, hs] at h
  | cons r rest ih =>
    by_cases hl : 22 ≤ r.length
    · by_cases hok : env.appendOk i (r.take 22) = true
      · simp only [batchLoop, appendArgs_of_le r hl, hok, if_true] at h
        rcases List.mem_cons.mp h with h1 | h1
        · have : args = r.take 22 := by
            simp only [Call.Append.injEq] at h1
            exact h1.1
          exact ⟨r, List.mem_cons_self _ _, hl, this⟩
        · obtain ⟨r', hr', hl', ha⟩ := ih (i + 1) h1
          exact ⟨r', List.mem_cons_of_mem _ hr', hl', ha⟩
      · have hok2 : env.appendOk i (r.take 22) = false := by simpa using hok
        simp only [batchLoop, appendArgs_of_le r hl, hok2, Bool.false_eq_true, if_false,
          List.mem_singleton, Call.Append.injEq] at h
        exact ⟨r, List.mem_cons_self _ _, hl, h.1⟩
    · simp [batchLoop, appendArgs_of_lt r (by omega)] at h

/-- The batch loop calls `Append` and `Send` only. -/
theorem batchLoop_calls_kind (env : Env) (table : GoString) (rows : List (List GoString))
    (i : Nat) (c : Call) (h : c ∈ (batchLoop env table i rows).calls) :
    (∃ args ok, c = Call.Append args ok) ∨ ∃ ok, c = Call.Send ok := by
  induction rows generalizing i with
  | nil =>
    cases hs : env.sendOk <;> simp [batchLoop, hs] at h <;> exact Or.inr ⟨_, h⟩
  | cons r rest ih =>
    by_cases hl : 22 ≤ r.length
    · by_cases hok : env.appendOk i (r.take 22) = true
      · simp only [batchLoop, appendArgs_of_le r hl, hok, if_true] at h
        rcases List.mem_cons.mp h with h1 | h1
        · exact Or.inl ⟨_, _, h1⟩
        · exact ih (i + 1) h1
      · have hok2 : env.appendOk i (r.take 22) = false := by simpa using hok
        simp only [batchLoop, appendArgs_of_le r hl, hok2, Bool.false_eq_true, if_false,
          List.mem_singleton] at h
        exact Or.inl ⟨_, _, h⟩
    · simp [batchLoop, appendArgs_of_lt r (by omega)] at h

/-- The statements the Store Loader hands to the driver: whatever it hands to
`conn.Exec` is `query`, and whatever it hands to `conn.PrepareBatch` is
`insertQuery`, both for the table of the destination identifier. -/
theorem load_calls_query (env : Env) (dbName fileNow : GoString) :
    (∀ query ok, Call.Exec query ok ∈ (load env dbName fileNow).calls →
      query = createQuery (tableName dbName)) ∧
    (∀ query ok, Call.PrepareBatch query ok ∈ (load env dbName fileNow).calls →
      query = insertQuery (tableName dbName)) := by
  have hloop : ∀ (rows : List (List GoString)) (c : Call),
      c ∈ (batchLoop env (tableName dbName) 0 rows).calls →
      (∀ q ok, c ≠ Call.Exec q ok) ∧ (∀ q ok, c ≠ Call.PrepareBatch q ok) := by
    intro rows c hc
    rcases batchLoop_calls_kind env _ rows 0 c hc with ⟨a, o, rfl⟩ | ⟨o, rfl⟩
    · constructor
      · intro q ok h; cases h
      · intro q ok h; cases h
    · constructor
      · intro q ok h; cases h
      · intro q ok h; cases h
  unfold load
  by_cases h1 : env.connectOk = true
  · by_cases h2 : env.execOk = true
    · by_cases h3 : env.openOk = true
      · cases hread : ReadAll fileNow with
        | error e => simp [h1, h2, h3]
        | ok records =>
          by_cases h4 : env.prepareOk = true
          · cases records with
            | nil => simp [h1, h2, h3, h4, sliceFrom1]
            | cons hdr rows =>
              simp only [h1, h2, h3, h4, sliceFrom1, Bool.not_true, Bool.false_eq_true,
                if_false, List.length_cons, Nat.le_add_left, if_true, List.drop_succ_cons,
                List.drop_zero]
              constructor
              · intro q ok hmem
                rcases List.mem_append.mp hmem with h | h
                · simp at h; exact h.1
                · exact absurd rfl ((hloop rows _ h).1 q ok)
              · intro q ok hmem
                rcases List.mem_append.mp hmem with h | h
                · simp at h; exact h.1
                · exact absurd rfl ((hloop rows _ h).2 q ok)
          · simp [h1, h2, h3, h4]
      · simp [h1, h2, h3]
    · simp [h1, h2]
  · simp [h1]

/-- The statements a run of `main` hands to the driver are those of the
Store Loader. -/
theorem main_calls_query (env : Env) (dbName : GoString) (events : List Event) :
    (∀ query ok, Call.Exec query ok ∈ (main env dbName events).trace.calls →
      query = createQuery (tableName dbName)) ∧
    (∀ query ok, Call.PrepareBatch query ok ∈ (main env dbName events).trace.calls →
      query = insertQuery (tableName dbName)) := by
  by_cases hc : env.createOk = true
  · simpa [main, hc] using load_calls_query env dbName
      (writeRows (NewWriter { content := [], space := env.space }) dbName events).w.wr.content
  · simp [main, hc]

/-- A run of `main` that creates the file and opens the connection hands
`query` to `conn.Exec`. -/
theorem main_calls_exec (env : Env) (dbName : GoString) (events : List Event)
    (hc : env.createOk = true) (hconn : env.connectOk = true) :
    Call.Exec (createQuery (tableName dbName)) env.execOk
      ∈ (main env dbName events).trace.calls := by
  simp only [main, hc, Bool.not_true, Bool.false_eq_true, if_false]
  unfold load
  by_cases h2 : env.execOk = true
  · by_cases h3 : env.openOk = true
    · cases hread : ReadAll (writeRows (NewWriter { content := [], space := env.space })
          dbName events).w.wr.content with
      | error e => simp [hconn, h2, h3]
      | ok records =>
        by_cases h4 : env.prepareOk = true
        · cases records <;> simp [hconn, h2, h3, h4, sliceFrom1]
        · simp [hconn, h2, h3, h4]
    · simp [hconn, h2, h3]
  · simp [hconn, h2]

/-- A run of `main` that gets as far as the parsed file hands `insertQuery` to
`conn.PrepareBatch`. -/
theorem main_calls_prepare (env : Env) (dbName : GoString) (events : List Event)
    (hc : env.createOk = true) (hconn : env.connectOk = true) (hexec : env.execOk = true)
    (hopen : env.openOk = true)
    (hread : ∃ records, ReadAll (main env dbName events).fileAtRead = .ok records) :
    Call.PrepareBatch (insertQuery (tableName dbName)) env.prepareOk
      ∈ (main env dbName events).trace.calls := by
  obtain ⟨records, hr⟩ := hread
  simp only [main, hc, Bool.not_true, Bool.false_eq_true, if_false] at hr ⊢
  unfold load
  by_cases h4 : env.prepareOk = true
  · cases records <;> simp [hconn, hexec, hopen, h4, hr, sliceFrom1]
  · simp [hconn, hexec, hopen, h4, hr]

/-- The text from the first `(` on skips a start without one. -/
theorem fromParen_append (a b : GoString) (ha : 40 ∉ a) :
    fromParen (a ++ b) = fromParen b := by
  induction a with
  | nil => rfl
  | cons c a ih =>
    have hc : c ≠ 40 := fun h => ha (by simp [h])
    have ha' : 40 ∉ a := fun h => ha (List.mem_cons_of_mem _ h)
    have := ih ha'
    simp only [fromParen] at this ⊢
    rw [List.cons_append, List.dropWhile_cons]
    simp only [ne_eq, hc, not_false_eq_true, decide_True, if_true]
    exact this

set_option maxRecDepth 100000 in
/-- The column list of the `CREATE TABLE` statement, for a destination
identifier without `(`: the 22 names in the order of the header, each with
its type. -/
theorem sqlColumns_createQuery (dbName : GoString) (h : 40 ∉ dbName) :
    sqlColumns (createQuery (tableName dbName)) = headerNames.map (fun name =>
      [utf8 name, utf8 (if name = "Date" then "DateTime"
        else if name = "Port" ∨ name = "SyncPort" then "UInt16" else "String")]) := by
  have hpre : 40 ∉ utf8 createHead ++ tableName dbName := by
    intro hm
    rcases List.mem_append.mp hm with h1 | h1
    · revert h1; decide
    · rcases List.mem_append.mp h1 with h2 | h2
      · exact h h2
      · revert h2; decide
  have hq : createQuery (tableName dbName)
      = (utf8 createHead ++ tableName dbName) ++ utf8 createBody := by
    simp [createQuery]
  unfold sqlColumns
  rw [hq, fromParen_append _ _ hpre]
  decide!

set_option maxRecDepth 100000 in
/-- The column list of the `INSERT` statement, for a destination identifier
without `(`: the 22 names in the order of the header. -/
theorem sqlColumns_insertQuery (dbName : GoString) (h : 40 ∉ dbName) :
    sqlColumns (insertQuery (tableName dbName)) = headerNames.map (fun name => [utf8 name]) := by
  have hpre : 40 ∉ utf8 insertHead ++ tableName dbName := by
    intro hm
    rcases List.mem_append.mp hm with h1 | h1
    · revert h1; decide
    · rcases List.mem_append.mp h1 with h2 | h2
      · exact h h2
      · revert h2; decide
  have hq : insertQuery (tableName dbName)
      = (utf8 insertHead ++ tableName dbName) ++ utf8 insertBody := by
    simp [insertQuery]
  unfold sqlColumns
  rw [hq, fromParen_append _ _ hpre]
  decide!

/-! ### The writer emits the text of the rows -/

/-- The rows handed to `Write` by the write loop: the rows handed before,
then the header, then one row per event in input order. -/
theorem writeRows_handed (wr : Writer) (dbName : GoString) (events : List Event) :
    (writeRows wr dbName events).handed
      = wr.handed ++ headers :: events.map (record dbName) := by
  unfold writeRows
  have key : ∀ (evs : List Event) (acc : Writer),
      (evs.foldl (fun acc event => acc.Write (record dbName event)) acc).handed
        = acc.handed ++ evs.map (record dbName) := by
    intro evs
    induction evs with
    | nil => intro acc; simp
    | cons e rest ih =>
      intro acc
      rw [List.foldl_cons, ih]
      simp [Writer.Write]
  rw [key]
  simp [Writer.Write]

/-- With room on the device, `Flush` keeps the room and loses no byte. -/
theorem Flush_room (b : BufWriter) (k : Nat) (h : b.Room k) :
    b.Flush.Room k ∧ b.Flush.out = b.out := by
  obtain ⟨he, hb, hs⟩ := h
  unfold BufWriter.Flush
  by_cases h0 : b.buf.length = 0
  · simp [he, h0]
    exact ⟨he, hb, hs⟩
  · have hfit : b.buf.length ≤ b.wr.space := by omega
    simp [he, h0, File.Write, hfit, BufWriter.Room, BufWriter.out]
    omega

/-- With room on the device, `Flush` empties the buffer. -/
theorem Flush_buf (b : BufWriter) (k : Nat) (h : b.Room k) : b.Flush.buf = [] := by
  obtain ⟨he, hb, hs⟩ := h
  unfold BufWriter.Flush
  by_cases h0 : b.buf.length = 0
  · simp [he, h0]
    exact List.length_eq_zero.mp h0
  · have hfit : b.buf.length ≤ b.wr.space := by omega
    simp [he, h0, File.Write, hfit]

/-- A buffer that fits the device is flushed without error. -/
theorem Flush_ok (b : BufWriter) (he : b.err = false) (hfit : b.buf.length ≤ b.wr.space) :
    b.Flush.buf = [] ∧ b.Flush.err = false := by
  unfold BufWriter.Flush
  by_cases h0 : b.buf.length = 0
  · simp [he, h0]
    exact List.length_eq_zero.mp h0
  · simp [he, h0, File.Write, hfit]

/-- A buffer that does not fit the device makes `Flush` fail. -/
theorem Flush_fail (b : BufWriter) (he : b.err = false) (hfit : ¬b.buf.length ≤ b.wr.space) :
    b.Flush.err = true := by
  unfold BufWriter.Flush
  have h0 : b.buf.length ≠ 0 := by omega
  simp [he, h0, File.Write, hfit]

/-- With room on the device for one more byte, `WriteByte` takes the byte. -/
theorem WriteByte_room (b : BufWriter) (c : UInt8) (k : Nat) (h : b.Room (k + 1)) :
    (b.WriteByte c).Room k ∧ (b.WriteByte c).out = b.out ++ [c] := by
  have hfl := Flush_room b (k + 1) h
  have hfb := Flush_buf b (k + 1) h
  obtain ⟨he, hb, hs⟩ := h
  obtain ⟨⟨he1, hb1, hs1⟩, ho1⟩ := hfl
  unfold BufWriter.WriteByte
  by_cases ha : b.Available ≤ 0
  · simp only [he, ha, he1, if_true, Bool.false_eq_true, if_false]
    refine ⟨⟨rfl, ?_, ?_⟩, ?_⟩
    · simp [hfb, defaultBufSize]
    · simp [hfb] at hs1 ⊢; omega
    · simp only [BufWriter.out] at ho1 ⊢
      rw [← ho1, List.append_assoc]
  · simp only [he, ha, Bool.false_eq_true, if_false]
    refine ⟨⟨rfl, ?_, ?_⟩, ?_⟩
    · unfold BufWriter.Available at ha; simp; omega
    · simp; omega
    · simp [BufWriter.out]

/-- After a successful `WriteByte` the buffer is not empty. -/
theorem WriteByte_buf_ne (b : BufWriter) (c : UInt8) (k : Nat) (h : b.Room (k + 1)) :
    (b.WriteByte c).buf ≠ [] := by
  have hfl := Flush_room b (k + 1) h
  obtain ⟨he, _, _⟩ := h
  obtain ⟨⟨he1, _, _⟩, _⟩ := hfl
  unfold BufWriter.WriteByte
  by_cases ha : b.Available ≤ 0
  · simp only [he, ha, he1, if_true, Bool.false_eq_true, if_false]
    simp
  · simp only [he, ha, Bool.false_eq_true, if_false]
    simp

/-- With room on the device and an empty buffer, the loop of `WriteString`
loses no byte and leaves a rest that fits the buffer. -/
theorem writeStringLoop_empty (b : BufWriter) (s : GoString) (k fuel : Nat)
    (hb0 : b.buf = []) (h : b.Room (s.length + k)) :
    ∃ b1 s1, BufWriter.writeStringLoop (fuel + 1) b s = (b1, s1) ∧
      b1.Room (s1.length + k) ∧ b1.out ++ s1 = b.out ++ s ∧ s1.length ≤ b1.Available := by
  obtain ⟨he, hb, hs⟩ := h
  have h0 : b.Buffered = 0 := by simp [BufWriter.Buffered, hb0]
  by_cases hfit : s.length > b.Available
  · have hroom : s.length ≤ b.wr.space := by omega
    refine ⟨{ b with err := false,
                     wr := { content := b.wr.content ++ s, space := b.wr.space - s.length } },
      [], ?_, ?_, ?_, ?_⟩
    · simp [BufWriter.writeStringLoop, hfit, he, h0, File.Write, hroom]
      cases fuel <;> simp [BufWriter.writeStringLoop, BufWriter.Available]
    · refine ⟨rfl, ?_, ?_⟩
      · simp [hb0]
      · simp [hb0] at hs ⊢; omega
    · simp [BufWriter.out, hb0]
    · simp
  · refine ⟨b, s, ?_, ⟨he, hb, hs⟩, rfl, by omega⟩
    simp [BufWriter.writeStringLoop, hfit]

/-- With room on the device, the loop of `WriteString` loses no byte and
leaves a rest that fits the buffer. -/
theorem writeStringLoop_room (b : BufWriter) (s : GoString) (k fuel : Nat)
    (h : b.Room (s.length + k)) :
    ∃ b1 s1, BufWriter.writeStringLoop (fuel + 2) b s = (b1, s1) ∧
      b1.Room (s1.length + k) ∧ b1.out ++ s1 = b.out ++ s ∧ s1.length ≤ b1.Available := by
  by_cases h0 : b.buf = []
  · exact writeStringLoop_empty b s k (fuel + 1) h0 h
  · obtain ⟨he, hb, hs⟩ := h
    have hB : b.Buffered ≠ 0 := by
      simp [BufWriter.Buffered, h0]
    by_cases hfit : s.length > b.Available
    · -- fill the buffer, flush, and the rest fits or goes to the file
      have hav : b.Available ≤ s.length := by omega
      have hfull : (b.buf ++ s.take b.Available).length = defaultBufSize := by
        simp [List.length_take, BufWriter.Available] at hav ⊢
        unfold BufWriter.Available at hfit
        omega
      have hdrop : (s.drop b.Available).length = s.length - b.Available := by simp
      have hroom : ({ b with buf := b.buf ++ s.take b.Available } : BufWriter).Room
          ((s.drop b.Available).length + k) := by
        refine ⟨he, ?_, ?_⟩
        · show (b.buf ++ s.take b.Available).length ≤ defaultBufSize
          omega
        · show (b.buf ++ s.take b.Available).length + _ ≤ b.wr.space
          rw [hfull, hdrop]
          unfold BufWriter.Available at hfit ⊢
          omega
      obtain ⟨hfr, hfo⟩ := Flush_room _ _ hroom
      have hfb := Flush_buf _ _ hroom
      obtain ⟨b1, s1, hloop, hr1, ho1, ha1⟩ :=
        writeStringLoop_empty _ (s.drop b.Available) k fuel hfb hfr
      refine ⟨b1, s1, ?_, hr1, ?_, ha1⟩
      · rw [← hloop]
        simp [BufWriter.writeStringLoop, hfit, he, hB, Nat.min_eq_left hav]
      · rw [ho1, hfo]
        simp [BufWriter.out]
    · refine ⟨b, s, ?_, ⟨he, hb, hs⟩, rfl, by omega⟩
      simp [BufWriter.writeStringLoop, hfit]

/-- The bound of the loop of `WriteString` is never what ends it: with a
bound of two or more the loop ends because its condition fails, whatever the
state of the writer and of the device. -/
theorem writeStringLoop_exit (b : BufWriter) (s : GoString) (fuel : Nat) :
    ∃ b1 s1, BufWriter.writeStringLoop (fuel + 2) b s = (b1, s1) ∧
      ¬(s1.length > b1.Available ∧ b1.err = false) := by
  -- with an empty buffer one more iteration is enough
  have hempty : ∀ (b : BufWriter) (s : GoString) (fuel : Nat), b.Buffered = 0 →
      ∃ b1 s1, BufWriter.writeStringLoop (fuel + 1) b s = (b1, s1) ∧
        ¬(s1.length > b1.Available ∧ b1.err = false) := by
    intro b s fuel h0
    by_cases hc : s.length > b.Available ∧ b.err = false
    · by_cases hroom : s.length ≤ b.wr.space
      · refine ⟨{ b with err := false,
                         wr := { content := b.wr.content ++ s,
                                 space := b.wr.space - s.length } }, [], ?_, by simp⟩
        simp [BufWriter.writeStringLoop, hc, h0, File.Write, hroom]
        cases fuel <;> simp [BufWriter.writeStringLoop]
      · refine ⟨{ b with err := true,
                         wr := { content := b.wr.content ++ s.take b.wr.space, space := 0 } },
          s.drop b.wr.space, ?_, by simp⟩
        simp [BufWriter.writeStringLoop, hc, h0, File.Write, hroom]
        cases fuel <;> simp [BufWriter.writeStringLoop]
    · exact ⟨b, s, by simp [BufWriter.writeStringLoop, hc], hc⟩
  by_cases h0 : b.Buffered = 0
  · exact hempty b s (fuel + 1) h0
  · by_cases hc : s.length > b.Available ∧ b.err = false
    · have hstep : BufWriter.writeStringLoop (fuel + 2) b s
          = BufWriter.writeStringLoop (fuel + 1)
              ({ b with buf := b.buf ++ s.take (min b.Available s.length) }).Flush
              (s.drop (min b.Available s.length)) := by
        simp [BufWriter.writeStringLoop, hc, h0]
      rw [hstep]
      have hne : (b.buf ++ s.take (min b.Available s.length)).length ≠ 0 := by
        simp only [BufWriter.Buffered] at h0
        simp only [List.length_append]
        omega
      by_cases hfit : (b.buf ++ s.take (min b.Available s.length)).length ≤ b.wr.space
      · have hfl : (({ b with buf := b.buf ++ s.take (min b.Available s.length) } :
            BufWriter).Flush).Buffered = 0 := by
          have := (Flush_ok { b with buf := b.buf ++ s.take (min b.Available s.length) }
            hc.2 hfit).1
          simp [BufWriter.Buffered, this]
        exact hempty _ _ fuel hfl
      · have hfl : (({ b with buf := b.buf ++ s.take (min b.Available s.length) } :
            BufWriter).Flush).err = true :=
          Flush_fail { b with buf := b.buf ++ s.take (min b.Available s.length) } hc.2 hfit
        refine ⟨({ b with buf := b.buf ++ s.take (min b.Available s.length) } :
            BufWriter).Flush, s.drop (min b.Available s.length), ?_, ?_⟩
        · rw [BufWriter.writeStringLoop]
          simp only [hfl, Bool.true_eq_false, and_false, if_false]
        · simp [hfl]
    · exact ⟨b, s, by simp [BufWriter.writeStringLoop, hc], hc⟩

/-- With room on the device for the string, `WriteString` takes all of it. -/
theorem WriteString_room (b : BufWriter) (s : GoString) (k : Nat)
    (h : b.Room (s.length + k)) :
    (b.WriteString s).Room k ∧ (b.WriteString s).out = b.out ++ s := by
  obtain ⟨b1, s1, hloop, ⟨he1, hb1, hs1⟩, ho1, ha1⟩ := writeStringLoop_room b s k s.length h
  unfold BufWriter.WriteString
  rw [hloop]
  simp only [he1, Bool.false_eq_true, if_false]
  have htake : s1.take b1.Available = s1 := List.take_of_length_le ha1
  refine ⟨⟨rfl, ?_, ?_⟩, ?_⟩
  · show (b1.buf ++ s1.take b1.Available).length ≤ defaultBufSize
    rw [htake]; unfold BufWriter.Available at ha1; simp; omega
  · show (b1.buf ++ s1.take b1.Available).length + k ≤ b1.wr.space
    rw [htake]; simp; omega
  · show b1.wr.content ++ (b1.buf ++ s1.take b1.Available) = b.out ++ s
    rw [htake, ← ho1]; simp [BufWriter.out]

/-- The index of the first special byte is within the field. -/
theorem indexAny_le (field : GoString) : indexAny field ≤ field.length := by
  induction field with
  | nil => simp [indexAny]
  | cons c rest ih =>
    unfold indexAny
    split
    · simp
    · simp; omega

/-- The quoted body of a field: the bytes before the first special byte as
they are, then the quoted body of the rest. -/
theorem quoteBody_split (field : GoString) :
    quoteBody field
      = field.take (indexAny field) ++ quoteBody (field.drop (indexAny field)) := by
  induction field with
  | nil => simp [indexAny, quoteBody]
  | cons c rest ih =>
    by_cases hc : c = 34 ∨ c = 13 ∨ c = 10
    · simp [indexAny, hc]
    · have h34 : c ≠ 34 := fun h => hc (Or.inl h)
      simp only [indexAny, hc, if_false, List.take_succ_cons, List.drop_succ_cons,
        List.cons_append]
      rw [quoteBody, if_neg h34, ih]

/-- The byte at the index `indexAny` gives is a quote, a carriage return or a
line feed. -/
theorem drop_indexAny_head (field : GoString) (c : UInt8) (rest : GoString)
    (h : field.drop (indexAny field) = c :: rest) : c = 34 ∨ c = 13 ∨ c = 10 := by
  induction field with
  | nil => simp [indexAny] at h
  | cons d tail ih =>
    by_cases hd : d = 34 ∨ d = 13 ∨ d = 10
    · simp [indexAny, hd] at h
      rw [← h.1]; exact hd
    · simp only [indexAny, hd, if_false, List.drop_succ_cons] at h
      exact ih h

/-- Nothing is written for an empty field body. -/
theorem writeQuotedLoop_nil (fuel : Nat) (w : BufWriter) : writeQuotedLoop fuel w [] = w := by
  cases fuel <;> simp [writeQuotedLoop]

/-- The bound of the loop over the body of a quoted field is never what
ends it: one more iteration allowed changes nothing once the bound is the
length of the field, whatever the state of the writer and of the device. -/
theorem writeQuotedLoop_fuel (n : Nat) :
    ∀ (field : GoString) (w : BufWriter), field.length ≤ n →
      writeQuotedLoop (n + 1) w field = writeQuotedLoop n w field := by
  induction n with
  | zero =>
    intro field w h
    have : field = [] := List.length_eq_zero.mp (by omega)
    subst this
    simp [writeQuotedLoop]
  | succ n ih =>
    intro field w h
    by_cases hnil : field = []
    · subst hnil; simp [writeQuotedLoop]
    · have hpos : field.length > 0 := List.length_pos.mpr hnil
      rw [writeQuotedLoop, writeQuotedLoop]
      simp only [hpos, if_true]
      by_cases he : (w.WriteString (field.take (indexAny field))).err = true
      · simp only [he, if_true]
      · simp only [he, if_false]
        cases hd : field.drop (indexAny field) with
        | nil => simp only [writeQuotedLoop_nil]
        | cons c rest =>
          have hrest : rest.length ≤ n := by
            have : (field.drop (indexAny field)).length = rest.length + 1 := by rw [hd]; simp
            simp only [List.length_drop] at this
            omega
          simp only []
          rw [ih rest _ hrest]

/-- With room on the device, the loop over a quoted field writes its quoted
body. -/
theorem writeQuotedLoop_room (fuel : Nat) :
    ∀ (field : GoString) (w : BufWriter) (k : Nat), field.length ≤ fuel →
      w.Room ((quoteBody field).length + k) →
      (writeQuotedLoop fuel w field).Room k ∧
        (writeQuotedLoop fuel w field).out = w.out ++ quoteBody field := by
  induction fuel with
  | zero =>
    intro field w k hlen hroom
    have : field = [] := List.length_eq_zero.mp (by omega)
    subst this
    simpa [writeQuotedLoop, quoteBody] using hroom
  | succ fuel ih =>
    intro field w k hlen hroom
    by_cases hnil : field = []
    · subst hnil
      simpa [writeQuotedLoop, quoteBody] using hroom
    · have hpos : field.length > 0 := List.length_pos.mpr hnil
      have hsplit := quoteBody_split field
      have htl : (field.take (indexAny field)).length = indexAny field := by
        simp [List.length_take, indexAny_le field]
      have hroom1 : w.Room ((field.take (indexAny field)).length
          + ((quoteBody (field.drop (indexAny field))).length + k)) := by
        have : (quoteBody field).length + k = (field.take (indexAny field)).length
            + ((quoteBody (field.drop (indexAny field))).length + k) := by
          conv_lhs => rw [hsplit]
          simp only [List.length_append]; omega
        rw [← this]; exact hroom
      obtain ⟨hr1, ho1⟩ := WriteString_room w _ _ hroom1
      have he1 : (w.WriteString (field.take (indexAny field))).err = false := hr1.1
      rw [writeQuotedLoop]
      simp only [hpos, if_true, he1, Bool.false_eq_true, if_false]
      cases hd : field.drop (indexAny field) with
      | nil =>
        simp only [hd, quoteBody, List.length_nil, Nat.zero_add] at hr1
        rw [writeQuotedLoop_nil]
        refine ⟨hr1, ?_⟩
        rw [ho1, hsplit, hd]; simp [quoteBody]
      | cons c rest =>
        have hc := drop_indexAny_head field c rest hd
        have hrest : rest.length ≤ fuel := by
          have : (field.drop (indexAny field)).length = rest.length + 1 := by rw [hd]; simp
          simp only [List.length_drop] at this
          omega
        rw [hd] at hr1
        simp only []
        by_cases h34 : c = 34
        · subst h34
          have hq : quoteBody (34 :: rest) = [34, 34] ++ quoteBody rest := by simp [quoteBody]
          rw [hq] at hr1
          have : (w.WriteString (field.take (indexAny field))).Room
              (([34, 34] : GoString).length + ((quoteBody rest).length + k)) := by
            have e : (([34, 34] : GoString) ++ quoteBody rest).length + k
                = ([34, 34] : GoString).length + ((quoteBody rest).length + k) := by
              simp only [List.length_append]; omega
            rw [← e]; exact hr1
          obtain ⟨hr2, ho2⟩ := WriteString_room _ _ _ this
          simp only [if_true, hr2.1, Bool.false_eq_true, if_false]
          obtain ⟨hr3, ho3⟩ := ih rest _ k hrest hr2
          refine ⟨hr3, ?_⟩
          rw [ho3, ho2, ho1, hsplit, hd, hq]; simp
        · have hq : quoteBody (c :: rest) = [c] ++ quoteBody rest := by simp [quoteBody, h34]
          rw [hq] at hr1
          have hrb : (w.WriteString (field.take (indexAny field))).Room
              (((quoteBody rest).length + k) + 1) := by
            have e : (([c] : GoString) ++ quoteBody rest).length + k
                = ((quoteBody rest).length + k) + 1 := by
              simp only [List.length_append, List.length_singleton]; omega
            rw [← e]; exact hr1
          obtain ⟨hr2, ho2⟩ := WriteByte_room _ c _ hrb
          have hw2 : (if c = 34 then
                (w.WriteString (field.take (indexAny field))).WriteString [34, 34]
              else if c = 13 then (w.WriteString (field.take (indexAny field))).WriteByte 13
              else if c = 10 then (w.WriteString (field.take (indexAny field))).WriteByte 10
              else w.WriteString (field.take (indexAny field)))
              = (w.WriteString (field.take (indexAny field))).WriteByte c := by
            rcases hc with h | h | h
            · exact absurd h h34
            · subst h; simp
            · subst h; simp
          rw [hw2]
          simp only [hr2.1, Bool.false_eq_true, if_false]
          obtain ⟨hr3, ho3⟩ := ih rest _ k hrest hr2
          refine ⟨hr3, ?_⟩
          rw [ho3, ho2, ho1, hsplit, hd, hq]; simp

/-- With room on the device, one iteration of the loop over the fields writes
the delimiter, unless the field is the first, and the bytes of the field. -/
theorem writeField_room (first : Bool) (w : BufWriter) (field : GoString) (k : Nat)
    (h : w.Room (((if first then [] else [Comma]) ++ fieldBytes field).length + k)) :
    (writeField first w field).Room k ∧
      (writeField first w field).out
        = w.out ++ ((if first then [] else [Comma]) ++ fieldBytes field) := by
  -- the delimiter
  have h0 : (if first then w else w.WriteByte Comma).Room ((fieldBytes field).length + k) ∧
      (if first then w else w.WriteByte Comma).out
        = w.out ++ (if first then [] else [Comma]) := by
    cases first
    · have : w.Room (((fieldBytes field).length + k) + 1) := by
        have e : ((if false = true then [] else [Comma]) ++ fieldBytes field).length + k
            = ((fieldBytes field).length + k) + 1 := by
          simp only [Bool.false_eq_true, if_false, List.length_append, List.length_singleton]
          omega
        rw [← e]; exact h
      simpa using WriteByte_room w Comma _ this
    · simpa using h
  obtain ⟨hr0, ho0⟩ := h0
  unfold writeField
  simp only [hr0.1, Bool.false_eq_true, if_false]
  by_cases hq : fieldNeedsQuotes field = true
  · simp only [hq, Bool.not_true, Bool.false_eq_true, if_false]
    have hfb : fieldBytes field = [34] ++ (quoteBody field ++ [34]) := by
      simp [fieldBytes, hq]
    rw [hfb] at hr0
    have hr0b : (if first then w else w.WriteByte Comma).Room
        (((quoteBody field).length + (k + 1)) + 1) := by
      have e : (([34] : GoString) ++ (quoteBody field ++ [34])).length + k
          = ((quoteBody field).length + (k + 1)) + 1 := by
        simp only [List.length_append, List.length_singleton]; omega
      rw [← e]; exact hr0
    obtain ⟨hr1, ho1⟩ := WriteByte_room _ 34 _ hr0b
    simp only [hr1.1, Bool.false_eq_true, if_false]
    obtain ⟨hr2, ho2⟩ := writeQuotedLoop_room field.length field _ (k + 1) (le_refl _) hr1
    simp only [hr2.1, Bool.false_eq_true, if_false]
    obtain ⟨hr3, ho3⟩ := WriteByte_room _ 34 _ hr2
    refine ⟨hr3, ?_⟩
    rw [ho3, ho2, ho1, ho0, hfb]; simp
  · have hq2 : fieldNeedsQuotes field = false := by simpa using hq
    simp only [hq2, Bool.not_false, if_true]
    have hfb : fieldBytes field = field := by simp [fieldBytes, hq2]
    rw [hfb] at hr0
    obtain ⟨hr1, ho1⟩ := WriteString_room _ field k hr0
    refine ⟨hr1, ?_⟩
    rw [ho1, ho0, hfb]; simp

/-- With room on the device, the loop over the fields writes their bytes. -/
theorem writeFields_room (rec : List GoString) :
    ∀ (first : Bool) (w : BufWriter) (k : Nat),
      w.Room ((fieldsBytes first rec).length + k) →
      (writeFields first w rec).Room k ∧
        (writeFields first w rec).out = w.out ++ fieldsBytes first rec := by
  induction rec with
  | nil =>
    intro first w k h
    simpa [writeFields, fieldsBytes] using h
  | cons field rest ih =>
    intro first w k h
    have h1 : w.Room (((if first then [] else [Comma]) ++ fieldBytes field).length
        + ((fieldsBytes false rest).length + k)) := by
      have e : (fieldsBytes first (field :: rest)).length + k
          = ((if first then [] else [Comma]) ++ fieldBytes field).length
            + ((fieldsBytes false rest).length + k) := by
        simp only [fieldsBytes, List.length_append]; omega
      rw [← e]; exact h
    obtain ⟨hr1, ho1⟩ := writeField_room first w field _ h1
    obtain ⟨hr2, ho2⟩ := ih false _ k hr1
    simp only [writeFields, hr1.1, Bool.false_eq_true, if_false]
    refine ⟨hr2, ?_⟩
    rw [ho2, ho1]; simp [fieldsBytes]

/-- With room on the device, `Write` writes the line of the record. -/
theorem Write_room (wr : Writer) (rec : List GoString) (k : Nat)
    (h : wr.w.Room ((recordBytes rec).length + k)) :
    (wr.Write rec).w.Room k ∧ (wr.Write rec).w.out = wr.w.out ++ recordBytes rec := by
  have h1 : wr.w.Room ((fieldsBytes true rec).length + (k + 1)) := by
    have e : (recordBytes rec).length + k = (fieldsBytes true rec).length + (k + 1) := by
      simp only [recordBytes, List.length_append, List.length_singleton]; omega
    rw [← e]; exact h
  obtain ⟨hr1, ho1⟩ := writeFields_room rec true wr.w (k + 1) h1
  obtain ⟨hr2, ho2⟩ := WriteByte_room _ 10 k hr1
  simp only [Writer.Write, hr1.1, Bool.false_eq_true, if_false]
  refine ⟨hr2, ?_⟩
  rw [ho2, ho1]; simp [recordBytes]

/-- After a successful `Write` the buffer is not empty. -/
theorem Write_buf_ne (wr : Writer) (rec : List GoString) (k : Nat)
    (h : wr.w.Room ((recordBytes rec).length + k)) : (wr.Write rec).w.buf ≠ [] := by
  have h1 : wr.w.Room ((fieldsBytes true rec).length + (k + 1)) := by
    have e : (recordBytes rec).length + k = (fieldsBytes true rec).length + (k + 1) := by
      simp only [recordBytes, List.length_append, List.length_singleton]; omega
    rw [← e]; exact h
  obtain ⟨hr1, _⟩ := writeFields_room rec true wr.w (k + 1) h1
  simp only [Writer.Write, hr1.1, Bool.false_eq_true, if_false]
  exact WriteByte_buf_ne _ 10 k hr1

/-- With room on the device, writing rows one after the other writes their
text. -/
theorem foldl_Write_room (rows : List (List GoString)) :
    ∀ (wr : Writer) (k : Nat), wr.w.Room ((csvBytes rows).length + k) →
      (rows.foldl Writer.Write wr).w.Room k ∧
        (rows.foldl Writer.Write wr).w.out = wr.w.out ++ csvBytes rows := by
  induction rows with
  | nil =>
    intro wr k h
    simpa [csvBytes] using h
  | cons rec rest ih =>
    intro wr k h
    have h1 : wr.w.Room ((recordBytes rec).length + ((csvBytes rest).length + k)) := by
      have e : (csvBytes (rec :: rest)).length + k
          = (recordBytes rec).length + ((csvBytes rest).length + k) := by
        simp only [csvBytes, List.flatMap_cons, List.length_append]; omega
      rw [← e]; exact h
    obtain ⟨hr1, ho1⟩ := Write_room wr rec _ h1
    obtain ⟨hr2, ho2⟩ := ih _ k hr1
    rw [List.foldl_cons]
    refine ⟨hr2, ?_⟩
    rw [ho2, ho1]; simp [csvBytes]

/-- After rows were written successfully, the buffer is not empty. -/
theorem foldl_Write_buf_ne (rows : List (List GoString)) (hne : rows ≠ []) :
    ∀ (wr : Writer) (k : Nat), wr.w.Room ((csvBytes rows).length + k) →
      (rows.foldl Writer.Write wr).w.buf ≠ [] := by
  induction rows with
  | nil => exact absurd rfl hne
  | cons rec rest ih =>
    intro wr k h
    have h1 : wr.w.Room ((recordBytes rec).length + ((csvBytes rest).length + k)) := by
      have e : (csvBytes (rec :: rest)).length + k
          = (recordBytes rec).length + ((csvBytes rest).length + k) := by
        simp only [csvBytes, List.flatMap_cons, List.length_append]; omega
      rw [← e]; exact h
    obtain ⟨hr1, _⟩ := Write_room wr rec _ h1
    rw [List.foldl_cons]
    by_cases hrest : rest = []
    · subst hrest
      exact Write_buf_ne wr rec _ h1
    · exact ih hrest _ k hr1

/-- The write loop of `main` is `Write` folded over the header and the rows of
the events. -/
theorem writeRows_eq_foldl (wr : Writer) (dbName : GoString) (events : List Event) :
    writeRows wr dbName events
      = (headers :: events.map (record dbName)).foldl Writer.Write wr := by
  simp [writeRows, List.foldl_map]

/-- With room on the device for the whole text of `rows`, writing them with a
fresh writer never fails, the file followed by the buffer is their text, and
after `Flush` the file holds exactly that text. -/
theorem foldl_Write_complete (rows : List (List GoString)) (space : Nat)
    (hroom : (csvBytes rows).length ≤ space) :
    (rows.foldl Writer.Write (NewWriter { content := [], space := space })).w.err = false ∧
    (rows.foldl Writer.Write (NewWriter { content := [], space := space })).w.out
      = csvBytes rows ∧
    (Writer.Flush (rows.foldl Writer.Write
      (NewWriter { content := [], space := space }))).w.wr.content = csvBytes rows := by
  have h0 : (NewWriter { content := [], space := space }).w.Room
      ((csvBytes rows).length + 0) := by
    refine ⟨rfl, by simp [NewWriter], by simpa [NewWriter] using hroom⟩
  obtain ⟨hr, ho⟩ := foldl_Write_room rows _ 0 h0
  have hout : (rows.foldl Writer.Write (NewWriter { content := [], space := space })).w.out
      = csvBytes rows := by
    rw [ho]; simp [NewWriter, BufWriter.out]
  refine ⟨hr.1, hout, ?_⟩
  obtain ⟨_, hfo⟩ := Flush_room _ 0 hr
  have hfb := Flush_buf _ 0 hr
  have h1 : (Writer.Flush (rows.foldl Writer.Write
      (NewWriter { content := [], space := space }))).w.out = csvBytes rows := by
    show (BufWriter.Flush _).out = _
    rw [hfo, hout]
  have hfb2 : (Writer.Flush (rows.foldl Writer.Write
      (NewWriter { content := [], space := space }))).w.buf = [] := hfb
  rw [BufWriter.out, hfb2, List.append_nil] at h1
  exact h1

/-- With room on the device for the whole text, the write loop of `main`
never fails, the file followed by the buffer is the text of the header and
all rows, and after `Flush` the file holds exactly that text. -/
theorem writeRows_complete (dbName : GoString) (events : List Event) (space : Nat)
    (hroom : (csvBytes (headers :: events.map (record dbName))).length ≤ space) :
    (writeRows (NewWriter { content := [], space := space }) dbName events).w.err = false ∧
    (writeRows (NewWriter { content := [], space := space }) dbName events).w.out
      = csvBytes (headers :: events.map (record dbName)) ∧
    (writeRows (NewWriter { content := [], space := space }) dbName events).Flush.w.wr.content
      = csvBytes (headers :: events.map (record dbName)) := by
  rw [writeRows_eq_foldl]
  exact foldl_Write_complete _ space hroom

/-! ### The reader: lines -/

/-- Reading up to the line feed goes past a byte that is not one. -/
theorem readSlice_cons (c : UInt8) (t : GoString) (hc : c ≠ 10) :
    readSlice (c :: t) = (c :: (readSlice t).1, (readSlice t).2.1, (readSlice t).2.2) := by
  simp [readSlice, hc]

/-- From an input that is not empty, something is read. -/
theorem readSlice_ne_nil (t : GoString) (ht : t ≠ []) : (readSlice t).1 ≠ [] := by
  cases t with
  | nil => exact absurd rfl ht
  | cons c t =>
    by_cases hc : c = 10
    · simp [readSlice, hc]
    · simp [readSlice_cons c t hc]

/-- When the end of the input is hit, the bytes read hold no line feed. -/
theorem readSlice_eof (t : GoString) (h : (readSlice t).2.2 = true) :
    10 ∉ (readSlice t).1 := by
  induction t with
  | nil => simp [readSlice]
  | cons c t ih =>
    by_cases hc : c = 10
    · simp [readSlice, hc] at h
    · rw [readSlice_cons c t hc] at h ⊢
      simp only [List.mem_cons, not_or]
      exact ⟨fun h10 => hc h10.symm, ih h⟩

/-- The bytes read are the single line feed only when the input starts with it. -/
theorem readSlice_eq_lf (t : GoString) (h : (readSlice t).1 = [10]) : t.head? = some 10 := by
  cases t with
  | nil => simp [readSlice] at h
  | cons c t =>
    by_cases hc : c = 10
    · simp [hc]
    · rw [readSlice_cons c t hc] at h
      simp at h
      exact absurd h.1 hc

/-- Dropping the final carriage return leaves a byte before other bytes alone. -/
theorem dropFinalCR_cons (c : UInt8) (l : GoString) (hl : l ≠ []) :
    dropFinalCR (c :: l) = c :: dropFinalCR l := by
  obtain ⟨b, l', rfl⟩ := List.exists_cons_of_ne_nil hl
  unfold dropFinalCR
  rw [List.getLast?_cons_cons]
  split <;> simp

/-- Dropping the final carriage return adds no line feed. -/
theorem dropFinalCR_no_lf (l : GoString) (h : 10 ∉ l) : 10 ∉ dropFinalCR l := by
  unfold dropFinalCR
  split
  · exact fun hm => h (List.dropLast_subset l hm)
  · exact h

/-- Normalizing the end of a line leaves a byte before it alone, unless the
line is that byte, a carriage return, followed by the line feed. -/
theorem normalizeCRLF_cons (c : UInt8) (l : GoString) (h : ¬(c = 13 ∧ l = [10])) :
    normalizeCRLF (c :: l) = c :: normalizeCRLF l := by
  rcases l with _ | ⟨x, _ | ⟨y, l'⟩⟩
  · simp [normalizeCRLF]
  · have : ¬(c = 13 ∧ x = 10) := by simpa using h
    simp [normalizeCRLF, this]
  · have e1 : (c :: x :: y :: l').length - 2 = l'.length + 1 := by simp
    have e2 : (c :: x :: y :: l').length - 1 = l'.length + 2 := by simp
    have e3 : (x :: y :: l').length - 2 = l'.length := by simp
    have e4 : (x :: y :: l').length - 1 = l'.length + 1 := by simp
    unfold normalizeCRLF
    rw [e1, e2, e3, e4]
    simp only [List.get?_cons_succ, List.take_succ_cons]
    by_cases hP : (x :: y :: l').get? l'.length = some 13
        ∧ (y :: l').get? l'.length = some 10
    · rw [if_pos ⟨by simp, hP⟩, if_pos ⟨by simp, hP⟩]; rfl
    · rw [if_neg (fun h => hP h.2), if_neg (fun h => hP h.2)]

/-- The line of an input that goes on after a byte other than the line feed:
that byte, then the line of the rest. -/
theorem readLine_cons (c : UInt8) (t : GoString) (hc : c ≠ 10) (ht : t ≠ [])
    (hcr : ¬(c = 13 ∧ t.head? = some 10)) :
    readLine (c :: t) = (c :: (readLine t).1, (readLine t).2.1, false) ∧
      (readLine t).2.2 = false := by
  have hne := readSlice_ne_nil t ht
  have hpos : (readSlice t).1.length > 0 := List.length_pos.mpr hne
  unfold readLine
  rw [readSlice_cons c t hc]
  by_cases he : (readSlice t).2.2 = true
  · have hno := dropFinalCR_no_lf _ (readSlice_eof t he)
    have hx : ¬(c = 13 ∧ dropFinalCR (readSlice t).1 = [10]) := by
      rintro ⟨_, h10⟩
      rw [h10] at hno; simp at hno
    simp only [he, hpos, and_self, if_true, List.length_cons, Nat.succ_pos, gt_iff_lt,
      Nat.zero_lt_succ, dropFinalCR_cons c _ hne, normalizeCRLF_cons c _ hx]
  · have he2 : (readSlice t).2.2 = false := by simpa using he
    have hx : ¬(c = 13 ∧ (readSlice t).1 = [10]) := by
      rintro ⟨h13, h10⟩
      exact hcr ⟨h13, readSlice_eq_lf t h10⟩
    simp only [he2, Bool.false_eq_true, and_false, if_false, normalizeCRLF_cons c _ hx]
    simp

/-- The method `readLine` returns what `lineOf` computes, and `io.EOF` exactly on
the empty input. -/
theorem readLine_eq_lineOf (s : GoString) :
    readLine s = ((lineOf s).1, (lineOf s).2, decide (s = [])) := by
  induction s with
  | nil => simp [readLine, readSlice, lineOf, normalizeCRLF]
  | cons c t ih =>
    by_cases hc : c = 10
    · subst hc
      simp [readLine, readSlice, lineOf, normalizeCRLF]
    · by_cases hcr : c = 13 ∧ t.head? = some 10
      · obtain ⟨rfl, h10⟩ := hcr
        obtain ⟨t', rfl⟩ : ∃ t', t = 10 :: t' := by
          cases t with
          | nil => simp at h10
          | cons d t' => simp at h10; exact ⟨t', by rw [h10]⟩
        simp [readLine, readSlice, lineOf, normalizeCRLF]
      · by_cases ht : t = []
        · subst ht
          by_cases h13 : c = 13
          · subst h13
            simp [readLine, readSlice, lineOf, normalizeCRLF, dropFinalCR]
          · simp [readLine, readSlice, lineOf, normalizeCRLF, dropFinalCR, hc, h13]
        · have h := (readLine_cons c t hc ht hcr).1
          rw [h, ih]
          have h1 : ¬(c = 13 ∧ t = []) := fun h => ht h.2
          simp [lineOf, hc, hcr, h1]

/-- A line feed is a line of its own. -/
theorem lineOf_lf (t : GoString) : lineOf (10 :: t) = ([10], t) := by
  simp [lineOf]

/-- A carriage return and a line feed are read as the line of the line feed. -/
theorem lineOf_crlf (t : GoString) : lineOf (13 :: 10 :: t) = ([10], t) := by
  simp [lineOf]

/-- A byte that does not end the line is its first byte. -/
theorem lineOf_cons (c : UInt8) (t : GoString) (hc : c ≠ 10)
    (hcr : ¬(c = 13 ∧ t.head? = some 10)) (hend : ¬(c = 13 ∧ t = [])) :
    lineOf (c :: t) = (c :: (lineOf t).1, (lineOf t).2) := by
  simp [lineOf, hc, hcr, hend]

/-- A byte other than line feed and carriage return is the first of its line. -/
theorem lineOf_cons_plain (c : UInt8) (t : GoString) (hc : c ≠ 10) (hc2 : c ≠ 13) :
    lineOf (c :: t) = (c :: (lineOf t).1, (lineOf t).2) :=
  lineOf_cons c t hc (fun h => hc2 h.1) (fun h => hc2 h.1)

/-- The line of a text that starts with bytes other than line feed and
carriage return: those bytes, then the line of what follows them. -/
theorem lineOf_append (f t : GoString) (hf : ∀ c ∈ f, c ≠ 10 ∧ c ≠ 13) :
    lineOf (f ++ t) = (f ++ (lineOf t).1, (lineOf t).2) := by
  induction f with
  | nil => simp
  | cons c f ih =>
    have hc := hf c (List.mem_cons_self _ _)
    rw [List.cons_append, lineOf_cons_plain c _ hc.1 hc.2,
      ih (fun d hd => hf d (List.mem_cons_of_mem _ hd))]
    simp

/-- Only the empty input and a lone carriage return give an empty line. -/
theorem lineOf_line_eq_nil (s : GoString) (h : (lineOf s).1 = []) : s = [] ∨ s = [13] := by
  cases s with
  | nil => exact Or.inl rfl
  | cons c t =>
    right
    by_cases hc : c = 10
    · simp [lineOf, hc] at h
    · by_cases hcr : c = 13 ∧ t.head? = some 10
      · simp [lineOf, hc, hcr] at h
      · by_cases hend : c = 13 ∧ t = []
        · rw [hend.1, hend.2]
        · rw [lineOf_cons c t hc hcr hend] at h
          simp at h

/-- A line and the input left hold all bytes of the input but one at most. -/
theorem lineOf_length (s : GoString) :
    s.length ≤ (lineOf s).1.length + (lineOf s).2.length + 1 := by
  induction s with
  | nil => simp
  | cons c t ih =>
    by_cases hc : c = 10
    · simp [lineOf, hc]
    · by_cases hcr : c = 13 ∧ t.head? = some 10
      · simp [lineOf, hc, hcr]
        omega
      · by_cases hend : c = 13 ∧ t = []
        · simp [lineOf, hend.1, hend.2]
        · rw [lineOf_cons c t hc hcr hend]
          simp only [List.length_cons]
          omega

/-- A line and the input left are no longer than the input. -/
theorem lineOf_le (s : GoString) : (lineOf s).1.length + (lineOf s).2.length ≤ s.length := by
  induction s with
  | nil => simp [lineOf]
  | cons c t ih =>
    by_cases hc : c = 10
    · simp [lineOf, hc]; omega
    · by_cases hcr : c = 13 ∧ t.head? = some 10
      · simp [lineOf, hc, hcr]; omega
      · by_cases hend : c = 13 ∧ t = []
        · simp [lineOf, hend.1, hend.2]
        · rw [lineOf_cons c t hc hcr hend]
          simp only [List.length_cons]
          omega

/-- Reading a line from an input that is not empty leaves less input. -/
theorem lineOf_rest_lt (s : GoString) (hs : s ≠ []) : (lineOf s).2.length < s.length := by
  induction s with
  | nil => exact absurd rfl hs
  | cons c t ih =>
    by_cases hc : c = 10
    · simp [lineOf, hc]
    · by_cases hcr : c = 13 ∧ t.head? = some 10
      · simp [lineOf, hc, hcr]; omega
      · by_cases hend : c = 13 ∧ t = []
        · simp [lineOf, hend.1, hend.2]
        · rw [lineOf_cons c t hc hcr hend]
          simp only [List.length_cons]
          by_cases ht : t = []
          · subst ht; simp [lineOf]
          · have := ih ht
            omega

/-! ### The reader: fields and records of the text the writer emits -/

/-- The index of a byte, past another byte. -/
theorem indexByte_cons_ne (c x : UInt8) (l : GoString) (h : x ≠ c) :
    indexByte c (x :: l) = (indexByte c l).map (· + 1) := by
  simp [indexByte, h]

/-- The index of a byte that comes first is 0. -/
theorem indexByte_cons_self (c : UInt8) (l : GoString) : indexByte c (c :: l) = some 0 := by
  simp [indexByte]

/-- The index of a byte after bytes that differ from it is their number. -/
theorem indexByte_append_self (c : UInt8) (f l : GoString) (hf : c ∉ f) :
    indexByte c (f ++ c :: l) = some f.length := by
  induction f with
  | nil => simp [indexByte]
  | cons d f ih =>
    have hd : d ≠ c := fun h => hf (by simp [h])
    have hf' : c ∉ f := fun h => hf (List.mem_cons_of_mem _ h)
    simp [indexByte, hd, ih hf']

/-- A byte that does not occur has no index. -/
theorem indexByte_none (c : UInt8) (f : GoString) (hf : c ∉ f) : indexByte c f = none := by
  induction f with
  | nil => simp [indexByte]
  | cons d f ih =>
    have hd : d ≠ c := fun h => hf (by simp [h])
    have hf' : c ∉ f := fun h => hf (List.mem_cons_of_mem _ h)
    simp [indexByte, hd, ih hf']

/-- The index of a byte is within the line. -/
theorem indexByte_lt (c : UInt8) (l : GoString) (i : Nat) (h : indexByte c l = some i) :
    i < l.length := by
  induction l generalizing i with
  | nil => simp [indexByte] at h
  | cons d l ih =>
    by_cases hd : d = c
    · simp [indexByte, hd] at h
      subst h; simp
    · rw [indexByte_cons_ne c d l hd] at h
      cases hi : indexByte c l with
      | none => rw [hi] at h; simp at h
      | some j =>
        rw [hi] at h
        simp at h
        subst h
        have := ih j hi
        simp only [List.length_cons]
        omega

/-- A text whose first byte is known starts with that byte. -/
theorem head?_eq_some_iff (t : GoString) (c : UInt8) (h : t.head? = some c) :
    ∃ t', t = c :: t' := by
  cases t with
  | nil => simp at h
  | cons d t' => simp at h; exact ⟨t', by rw [h]⟩

/-- In a quoted field, a byte of the line other than the quote, with more of
the line after it, is taken into the field. -/
theorem quotedLoop_cons (fuel : Nat) (x : UInt8) (line rest field : GoString)
    (hx : x ≠ 34) (hline : line ≠ []) :
    quotedLoop (fuel + 1) (x :: line) rest field
      = quotedLoop (fuel + 1) line rest (field ++ [x]) := by
  have hpos : line.length > 0 := List.length_pos.mpr hline
  rw [quotedLoop, quotedLoop, indexByte_cons_ne 34 x line hx]
  cases hi : indexByte 34 line with
  | none => simp [hpos]
  | some i => simp

/-- The closing quote of a quoted field that a delimiter or a line feed
follows ends the field. -/
theorem quotedLoop_close (fuel : Nat) (acc t : GoString)
    (ht : t.head? = some 59 ∨ t.head? = some 10) :
    quotedLoop (fuel + 1) (lineOf (34 :: t)).1 (lineOf (34 :: t)).2 acc
      = if t.head? = some 59 then
          QuotedEnd.next acc (lineOf (t.drop 1)).1 (lineOf (t.drop 1)).2
        else QuotedEnd.last acc (t.drop 1) := by
  rw [lineOf_cons_plain 34 t (by decide) (by decide)]
  rcases ht with h | h
  · obtain ⟨t', rfl⟩ := head?_eq_some_iff t 59 h
    rw [lineOf_cons_plain 59 t' (by decide) (by decide)]
    simp [quotedLoop, indexByte, Comma]
  · obtain ⟨t', rfl⟩ := head?_eq_some_iff t 10 h
    rw [lineOf_lf]
    simp [quotedLoop, indexByte, Comma, lengthNL]

/-- The quoted body of a field starts with the first byte of the field. -/
theorem quoteBody_head (c : GoString) (t : GoString) (hc : c ≠ []) :
    (quoteBody c ++ t).head? = c.head? := by
  cases c with
  | nil => exact absurd rfl hc
  | cons x c' =>
    by_cases hx : x = 34
    · simp [quoteBody, hx]
    · simp [quoteBody, hx]

/-- The quoted body of a field is at least as long as the field. -/
theorem quoteBody_length (f : GoString) : f.length ≤ (quoteBody f).length := by
  induction f with
  | nil => simp [quoteBody]
  | cons c f ih =>
    unfold quoteBody
    split
    · simp; omega
    · simp; omega

/-- The body of a quoted field, up to its closing quote, is read back as the
field with `\r\n` turned into `\n`. -/
theorem quotedLoop_body (n : Nat) :
    ∀ (c acc t : GoString) (fuel : Nat), c.length ≤ n → c.length < fuel →
      (t.head? = some 59 ∨ t.head? = some 10) →
      quotedLoop fuel (lineOf (quoteBody c ++ 34 :: t)).1
          (lineOf (quoteBody c ++ 34 :: t)).2 acc
        = if t.head? = some 59 then
            QuotedEnd.next (acc ++ dropCR c) (lineOf (t.drop 1)).1 (lineOf (t.drop 1)).2
          else QuotedEnd.last (acc ++ dropCR c) (t.drop 1) := by
  induction n with
  | zero =>
    intro c acc t fuel hn hf ht
    have hc : c = [] := List.length_eq_zero.mp (by omega)
    subst hc
    obtain ⟨f, rfl⟩ : ∃ f, fuel = f + 1 := ⟨fuel - 1, by simp at hf; omega⟩
    simpa [quoteBody, dropCR] using quotedLoop_close f acc t ht
  | succ n ih =>
    intro c acc t fuel hn hf ht
    obtain ⟨f, rfl⟩ : ∃ f, fuel = f + 1 := ⟨fuel - 1, by omega⟩
    cases c with
    | nil => simpa [quoteBody, dropCR] using quotedLoop_close f acc t ht
    | cons x c' =>
      have hlen : c'.length ≤ n := by simpa using hn
      have hfl : c'.length < f := by simp at hf; omega
      by_cases h34 : x = 34
      · -- a doubled quote
        subst h34
        have hs : quoteBody (34 :: c') ++ 34 :: t = 34 :: 34 :: (quoteBody c' ++ 34 :: t) := by
          simp [quoteBody]
        rw [hs, lineOf_cons_plain 34 _ (by decide) (by decide),
          lineOf_cons_plain 34 _ (by decide) (by decide)]
        have hd : dropCR (34 :: c') = 34 :: dropCR c' := by simp [dropCR]
        rw [quotedLoop]
        simp only [indexByte_cons_self, List.take_zero, List.append_nil, Nat.zero_add,
          List.drop_succ_cons, List.drop_zero, List.head?_cons, if_true]
        rw [ih c' (acc ++ [34]) t f hlen hfl ht, hd]
        simp
      · by_cases h10 : x = 10
        · -- a line feed ends the line; the field goes on in the next line
          subst h10
          have hs : quoteBody (10 :: c') ++ 34 :: t = 10 :: (quoteBody c' ++ 34 :: t) := by
            simp [quoteBody]
          have hd : dropCR (10 :: c') = 10 :: dropCR c' := by simp [dropCR]
          rw [hs, lineOf_lf, quotedLoop]
          simp only [indexByte, readLine_eq_lineOf]
          simp only [show ((10 : UInt8) = 34) = False by decide, if_false, Option.map_none',
            List.length_singleton, Nat.lt_one_iff, gt_iff_lt, Nat.zero_lt_one, if_true]
          rw [ih c' (acc ++ [10]) t f hlen hfl ht, hd]
          simp
        · by_cases hcr : x = 13 ∧ c'.head? = some 10
          · -- a carriage return and a line feed: the line feed alone is read
            obtain ⟨rfl, hh⟩ := hcr
            obtain ⟨c'', rfl⟩ := head?_eq_some_iff c' 10 hh
            have hs : quoteBody (13 :: 10 :: c'') ++ 34 :: t
                = 13 :: 10 :: (quoteBody c'' ++ 34 :: t) := by
              simp [quoteBody]
            have hd : dropCR (13 :: 10 :: c'') = 10 :: dropCR c'' := by simp [dropCR]
            have hlen2 : c''.length ≤ n := by simp at hlen; omega
            have hfl2 : c''.length < f := by simp at hfl; omega
            rw [hs, lineOf_crlf, quotedLoop]
            simp only [indexByte, readLine_eq_lineOf]
            simp only [show ((10 : UInt8) = 34) = False by decide, if_false, Option.map_none',
              List.length_singleton, Nat.lt_one_iff, gt_iff_lt, Nat.zero_lt_one, if_true]
            rw [ih c'' (acc ++ [10]) t f hlen2 hfl2 ht, hd]
            simp
          · -- any other byte stays in the line and is taken as it is
            have hs : quoteBody (x :: c') ++ 34 :: t = x :: (quoteBody c' ++ 34 :: t) := by
              simp [quoteBody, h34]
            have hd : dropCR (x :: c') = x :: dropCR c' := by simp [dropCR, hcr]
            have hhead : ¬(x = 13 ∧ (quoteBody c' ++ 34 :: t).head? = some 10) := by
              rintro ⟨h13, hh⟩
              by_cases hc' : c' = []
              · subst hc'; simp [quoteBody] at hh
              · rw [quoteBody_head c' _ hc'] at hh
                exact hcr ⟨h13, hh⟩
            have hne : ¬(x = 13 ∧ quoteBody c' ++ 34 :: t = []) := by
              rintro ⟨_, h⟩; simp at h
            have hline : (lineOf (quoteBody c' ++ 34 :: t)).1 ≠ [] := by
              intro h
              rcases lineOf_line_eq_nil _ h with h1 | h1
              · simp at h1
              · have : (34 : UInt8) ∈ quoteBody c' ++ 34 :: t := by simp
                rw [h1] at this
                simp at this
            rw [hs, lineOf_cons x _ h10 hhead hne]
            simp only []
            rw [quotedLoop_cons f x _ _ acc h34 hline,
              ih c' (acc ++ [x]) t (f + 1) hlen (by omega) ht, hd]
            simp

/-- A field the writer does not quote holds no line feed, carriage return,
quote or delimiter. -/
theorem plain_of_not_needsQuotes (f : GoString) (h : fieldNeedsQuotes f = false) :
    ∀ c ∈ f, c ≠ 10 ∧ c ≠ 13 ∧ c ≠ 34 ∧ c ≠ 59 := by
  intro c hc
  have hne : f ≠ [] := List.ne_nil_of_mem hc
  unfold fieldNeedsQuotes at h
  simp only [hne, if_false] at h
  by_cases h2 : f = [92, 46]
  · simp [h2] at h
  · simp only [h2, if_false] at h
    have h5 : ∀ x ∈ f, ¬x = 10 ∧ ¬x = 13 ∧ ¬x = 34 ∧ ¬x = Comma := by
      simp at h
      exact h.1
    simpa [Comma] using h5 c hc

/-- A field without a carriage return is read back as it is. -/
theorem dropCR_plain (f : GoString) (h : ∀ c ∈ f, c ≠ 13) : dropCR f = f := by
  induction f with
  | nil => rfl
  | cons c f ih =>
    have hc : c ≠ 13 := h c (List.mem_cons_self _ _)
    simp [dropCR, hc, ih (fun d hd => h d (List.mem_cons_of_mem _ hd))]

/-- A field in which no carriage return stands directly before a line feed is
read back as it is. -/
theorem dropCR_eq_self (f : GoString) (h : ∀ a b : GoString, f ≠ a ++ 13 :: 10 :: b) :
    dropCR f = f := by
  induction f with
  | nil => rfl
  | cons c f ih =>
    have hc : ¬(c = 13 ∧ f.head? = some 10) := by
      rintro ⟨rfl, hh⟩
      obtain ⟨t, rfl⟩ := head?_eq_some_iff f 10 hh
      exact h [] t rfl
    have ih' := ih (fun a b hab => h (c :: a) b (by rw [hab]; rfl))
    simp [dropCR, hc, ih']

/-- An unquoted field followed by the delimiter is read as it is, and the
loop goes on after the delimiter. -/
theorem parseFields_plain_next (fuel : Nat) (f line rest : GoString) (fields : List GoString)
    (hf : ∀ c ∈ f, c ≠ 10 ∧ c ≠ 13 ∧ c ≠ 34 ∧ c ≠ 59) :
    parseFields (fuel + 1) (f ++ 59 :: line) rest fields
      = parseFields fuel line rest (fields ++ [f]) := by
  have h59 : (59 : UInt8) ∉ f := fun h => (hf 59 h).2.2.2 rfl
  have h34 : (34 : UInt8) ∉ f := fun h => (hf 34 h).2.2.1 rfl
  have hhead : (f ++ 59 :: line).head? ≠ some 34 := by
    cases f with
    | nil => simp
    | cons d f =>
      have := (hf d (List.mem_cons_self _ _)).2.2.1
      simpa using this
  rw [parseFields]
  simp only [hhead, ne_eq, not_false_eq_true, or_true, if_true, Comma,
    indexByte_append_self 59 f line h59]
  simp [indexByte_none 34 f h34]

/-- An unquoted field followed by the line feed is read as it is and ends
the record. -/
theorem parseFields_plain_last (fuel : Nat) (f rest : GoString) (fields : List GoString)
    (hf : ∀ c ∈ f, c ≠ 10 ∧ c ≠ 13 ∧ c ≠ 34 ∧ c ≠ 59) :
    parseFields (fuel + 1) (f ++ [10]) rest fields = .ok (fields ++ [f], rest) := by
  have h59 : (59 : UInt8) ∉ f ++ [10] := by
    intro h
    rcases List.mem_append.mp h with h | h
    · exact (hf 59 h).2.2.2 rfl
    · simp at h
  have h34 : (34 : UInt8) ∉ f := fun h => (hf 34 h).2.2.1 rfl
  have hhead : (f ++ [10]).head? ≠ some 34 := by
    cases f with
    | nil => simp
    | cons d f =>
      have := (hf d (List.mem_cons_self _ _)).2.2.1
      simpa using this
  rw [parseFields]
  simp only [hhead, ne_eq, not_false_eq_true, or_true, if_true, Comma,
    indexByte_none 59 _ h59]
  simp [lengthNL, indexByte_none 34 f h34]

/-- One field as the writer emits it, followed by the delimiter or the line
feed, is read back with `\r\n` turned into `\n`; after a delimiter the loop
goes on with the rest of the text, after a line feed the record is complete. -/
theorem parseFields_field (fuel : Nat) (f t : GoString) (fields : List GoString)
    (ht : t.head? = some 59 ∨ t.head? = some 10) :
    parseFields (fuel + 1) (lineOf (fieldBytes f ++ t)).1 (lineOf (fieldBytes f ++ t)).2 fields
      = if t.head? = some 59 then
          parseFields fuel (lineOf (t.drop 1)).1 (lineOf (t.drop 1)).2 (fields ++ [dropCR f])
        else .ok (fields ++ [dropCR f], t.drop 1) := by
  by_cases hq : fieldNeedsQuotes f = true
  · -- a quoted field
    have hfb : fieldBytes f ++ t = 34 :: (quoteBody f ++ 34 :: t) := by
      simp [fieldBytes, hq]
    rw [hfb, lineOf_cons_plain 34 _ (by decide) (by decide), parseFields]
    have hfuel : f.length < (34 :: (lineOf (quoteBody f ++ 34 :: t)).1).length
        + (lineOf (quoteBody f ++ 34 :: t)).2.length + 1 := by
      have h1 := lineOf_length (quoteBody f ++ 34 :: t)
      have h2 := quoteBody_length f
      simp only [List.length_append, List.length_cons] at h1 ⊢
      omega
    simp only [List.length_cons, List.head?_cons, ne_eq, not_true_eq_false, or_false,
      Nat.succ_ne_zero, if_false, List.drop_succ_cons, List.drop_zero] at hfuel ⊢
    rw [quotedLoop_body f.length f [] t _ (le_refl _) hfuel ht]
    rcases ht with h | h
    · simp [h]
    · have : t.head? ≠ some 59 := by rw [h]; decide
      simp [this]
  · -- an unquoted field
    have hq2 : fieldNeedsQuotes f = false := by simpa using hq
    have hplain := plain_of_not_needsQuotes f hq2
    have hfb : fieldBytes f = f := by simp [fieldBytes, hq2]
    have hd : dropCR f = f := dropCR_plain f (fun c hc => (hplain c hc).2.1)
    rw [hfb, hd, lineOf_append f t (fun c hc => ⟨(hplain c hc).1, (hplain c hc).2.1⟩)]
    rcases ht with h | h
    · obtain ⟨t', rfl⟩ := head?_eq_some_iff t 59 h
      rw [lineOf_cons_plain 59 t' (by decide) (by decide)]
      simp only [List.head?_cons, if_true, List.drop_succ_cons, List.drop_zero]
      exact parseFields_plain_next fuel f _ _ fields hplain
    · obtain ⟨t', rfl⟩ := head?_eq_some_iff t 10 h
      rw [lineOf_lf]
      have : ((10 : UInt8) = 59) = False := by decide
      simp only [List.head?_cons, Option.some.injEq, this, if_false, List.drop_succ_cons,
        List.drop_zero]
      exact parseFields_plain_last fuel f _ fields hplain

/-- What follows a field in the line of a record starts with the delimiter or
with the line feed. -/
theorem fieldsBytes_false_head (r : List GoString) (t : GoString) :
    (fieldsBytes false r ++ 10 :: t).head? = some 59 ∨
      (fieldsBytes false r ++ 10 :: t).head? = some 10 := by
  cases r with
  | nil => right; simp [fieldsBytes]
  | cons g r => left; simp [fieldsBytes, Comma]

/-- Every further field of a record adds a byte at least, its delimiter. -/
theorem fieldsBytes_false_length (r : List GoString) : r.length ≤ (fieldsBytes false r).length := by
  induction r with
  | nil => simp
  | cons g r ih =>
    simp only [fieldsBytes, List.length_append, List.length_cons, Bool.false_eq_true, if_false,
      List.length_singleton, List.length_nil]
    omega

/-- The fields of a record as the writer emits them, up to the line feed,
are read back in order, each with `\r\n` turned into `\n`, and the input
after the line feed is left. -/
theorem parseFields_record (t : GoString) (r : List GoString) :
    ∀ (f : GoString) (fields : List GoString) (fuel : Nat), r.length < fuel →
      parseFields fuel (lineOf (fieldBytes f ++ (fieldsBytes false r ++ 10 :: t))).1
          (lineOf (fieldBytes f ++ (fieldsBytes false r ++ 10 :: t))).2 fields
        = .ok (fields ++ dropCR f :: r.map dropCR, t) := by
  induction r with
  | nil =>
    intro f fields fuel hf
    obtain ⟨n, rfl⟩ : ∃ n, fuel = n + 1 := ⟨fuel - 1, by omega⟩
    rw [parseFields_field n f _ fields (fieldsBytes_false_head [] t)]
    simp [fieldsBytes]
  | cons g r ih =>
    intro f fields fuel hf
    obtain ⟨n, rfl⟩ : ∃ n, fuel = n + 1 := ⟨fuel - 1, by omega⟩
    rw [parseFields_field n f _ fields (fieldsBytes_false_head (g :: r) t)]
    have hs : fieldsBytes false (g :: r) ++ 10 :: t
        = 59 :: (fieldBytes g ++ (fieldsBytes false r ++ 10 :: t)) := by
      simp [fieldsBytes, Comma]
    rw [hs]
    simp only [List.head?_cons, if_true, List.drop_succ_cons, List.drop_zero]
    rw [ih g (fields ++ [dropCR f]) n (by simp at hf; omega)]
    simp

/-- The line of a record: the bytes of its first field, then the further
fields, then the line feed. -/
theorem recordBytes_cons (f : GoString) (r : List GoString) (t : GoString) :
    recordBytes (f :: r) ++ t = fieldBytes f ++ (fieldsBytes false r ++ 10 :: t) := by
  simp [recordBytes, fieldsBytes]

/-- The line of a record with a field that is not empty, or with more than
one field, starts with a byte that is neither a line feed nor a carriage
return. -/
theorem record_first_byte (f : GoString) (r : List GoString) (t : GoString)
    (h : f ≠ [] ∨ r ≠ []) :
    ∃ c s, recordBytes (f :: r) ++ t = c :: s ∧ c ≠ 10 ∧ c ≠ 13 := by
  rw [recordBytes_cons]
  by_cases hq : fieldNeedsQuotes f = true
  · exact ⟨34, _, by simp [fieldBytes, hq]; rfl, by decide, by decide⟩
  · have hq2 : fieldNeedsQuotes f = false := by simpa using hq
    have hplain := plain_of_not_needsQuotes f hq2
    cases f with
    | cons c f' =>
      have hc := hplain c (List.mem_cons_self _ _)
      exact ⟨c, _, by simp [fieldBytes, hq2]; rfl, hc.1, hc.2.1⟩
    | nil =>
      cases r with
      | nil => simp at h
      | cons g r =>
        exact ⟨59, _, by simp [fieldBytes, fieldNeedsQuotes, fieldsBytes, Comma]; rfl,
          by decide, by decide⟩

/-- A line that starts with a byte other than the line feed is not empty. -/
theorem lengthNL_cons_ne (c : UInt8) (l : GoString) (hc : c ≠ 10) :
    (c :: l).length ≠ lengthNL (c :: l) := by
  unfold lengthNL
  cases l with
  | nil => simp [hc]
  | cons d l => split <;> simp

/-- A record as the writer emits it is read back by `readRecord`, each field
with `\r\n` turned into `\n`. -/
theorem readRecord_record (f : GoString) (r : List GoString) (t : GoString)
    (h : f ≠ [] ∨ r ≠ []) :
    readRecord (recordBytes (f :: r) ++ t) = .ok (some ((f :: r).map dropCR, t)) := by
  obtain ⟨c, s, hs, hc10, hc13⟩ := record_first_byte f r t h
  have hline : lineOf (recordBytes (f :: r) ++ t) = (c :: (lineOf s).1, (lineOf s).2) := by
    rw [hs, lineOf_cons_plain c s hc10 hc13]
  have hnext : nextLine ((recordBytes (f :: r) ++ t).length + 1) (recordBytes (f :: r) ++ t)
      = .ok (some (c :: (lineOf s).1, (lineOf s).2)) := by
    rw [nextLine, readLine_eq_lineOf, hline]
    have hne : recordBytes (f :: r) ++ t ≠ [] := by rw [hs]; simp
    have hnb : ¬((c :: (lineOf s).1).length = lengthNL (c :: (lineOf s).1)) :=
      lengthNL_cons_ne c _ hc10
    simp only [hne, decide_False, hnb, and_false, if_false, Bool.false_eq_true]
  unfold readRecord
  rw [hnext]
  simp only []
  have hfuel : r.length < (c :: (lineOf s).1).length + (lineOf s).2.length + 1 := by
    have h1 := lineOf_length (recordBytes (f :: r) ++ t)
    rw [hline] at h1
    have h2 := fieldsBytes_false_length r
    rw [recordBytes_cons] at h1
    simp only [List.length_append, List.length_cons] at h1 ⊢
    omega
  have hp := parseFields_record t r f [] _ hfuel
  rw [← recordBytes_cons, hline] at hp
  rw [hp]
  simp

/-- At the end of the input `readRecord` returns `io.EOF`. -/
theorem readRecord_nil : readRecord [] = .ok none := by
  simp [readRecord, nextLine, readLine, readSlice, normalizeCRLF]

/-- The line of a record has a byte at least, its line feed. -/
theorem recordBytes_length_pos (r : List GoString) : 1 ≤ (recordBytes r).length := by
  simp [recordBytes]

/-- The text of rows has a byte per row at least. -/
theorem csvBytes_length (rows : List (List GoString)) : rows.length ≤ (csvBytes rows).length := by
  induction rows with
  | nil => simp
  | cons r rows ih =>
    have := recordBytes_length_pos r
    simp only [csvBytes, List.flatMap_cons, List.length_append, List.length_cons] at ih ⊢
    omega

/-- The loop of `ReadAll` over the text of rows, none of which is empty or
the single empty field: every row is read back in order. -/
theorem readAllLoop_csvBytes (rows : List (List GoString)) :
    ∀ (acc : List (List GoString)) (fuel : Nat), rows.length < fuel →
      (∀ r ∈ rows, r ≠ [] ∧ r ≠ [[]]) →
      readAllLoop fuel (csvBytes rows) acc = .ok (acc ++ rows.map (fun r => r.map dropCR)) := by
  induction rows with
  | nil =>
    intro acc fuel hf _
    obtain ⟨n, rfl⟩ : ∃ n, fuel = n + 1 := ⟨fuel - 1, by omega⟩
    simp [readAllLoop, csvBytes, readRecord_nil]
  | cons r rows ih =>
    intro acc fuel hf hrows
    obtain ⟨n, rfl⟩ : ∃ n, fuel = n + 1 := ⟨fuel - 1, by omega⟩
    obtain ⟨hr1, hr2⟩ := hrows r (List.mem_cons_self _ _)
    obtain ⟨f, r', rfl⟩ := List.exists_cons_of_ne_nil hr1
    have hne : f ≠ [] ∨ r' ≠ [] := by
      by_contra hcon
      simp only [not_or, not_not] at hcon
      exact hr2 (by rw [hcon.1, hcon.2])
    have hcs : csvBytes ((f :: r') :: rows) = recordBytes (f :: r') ++ csvBytes rows := by
      simp [csvBytes]
    rw [readAllLoop, hcs, readRecord_record f r' _ hne]
    simp only []
    rw [ih (acc ++ [(f :: r').map dropCR]) n (by simp at hf; omega)
      (fun x hx => hrows x (List.mem_cons_of_mem _ hx))]
    simp

/-- The method `ReadAll` on the text the writer emits for rows, none empty
or the single empty field, returns the rows in order, each field with every
carriage return that stands directly before a line feed removed. -/
theorem ReadAll_csvBytes (rows : List (List GoString))
    (hrows : ∀ r ∈ rows, r ≠ [] ∧ r ≠ [[]]) :
    ReadAll (csvBytes rows) = .ok (rows.map (fun r => r.map dropCR)) := by
  unfold ReadAll
  rw [readAllLoop_csvBytes rows [] _ (by have := csvBytes_length rows; omega) hrows]
  simp

/-! ### The reader ends on every input -/

/-- The loop that skips empty lines stays within its bound on every input,
and the line and input it returns are no longer than the input. -/
theorem nextLine_total (fuel : Nat) :
    ∀ input : GoString, input.length < fuel →
      ∃ r, nextLine fuel input = .ok r ∧
        ∀ line rest, r = some (line, rest) →
          line.length + rest.length ≤ input.length ∧ rest.length < input.length := by
  induction fuel with
  | zero => intro input h; omega
  | succ fuel ih =>
    intro input hlen
    rw [nextLine, readLine_eq_lineOf]
    by_cases hin : input = []
    · subst hin
      exact ⟨none, by simp [lineOf, lengthNL], by intro _ _ h; cases h⟩
    · have h1 := lineOf_le input
      have h2 := lineOf_rest_lt input hin
      by_cases hblank : (lineOf input).1.length = lengthNL (lineOf input).1
      · obtain ⟨r, hr, hb⟩ := ih (lineOf input).2 (by omega)
        refine ⟨r, by simp [hin, hblank, hr], ?_⟩
        intro line rest hrr
        have := hb line rest hrr
        omega
      · refine ⟨some ((lineOf input).1, (lineOf input).2), by simp [hin, hblank], ?_⟩
        intro line rest hrr
        simp only [Option.some.injEq, Prod.mk.injEq] at hrr
        rw [← hrr.1, ← hrr.2]
        exact ⟨h1, h2⟩

/-- The loop over a quoted field stays within its bound whenever the bound
exceeds the bytes left, and what it leaves is shorter than what it got. -/
theorem quotedLoop_total (fuel : Nat) :
    ∀ line rest field : GoString, line.length + rest.length < fuel →
      match quotedLoop fuel line rest field with
      | .next _ line1 rest1 =>
        line1.length + rest1.length < line.length + rest.length ∧ rest1.length ≤ rest.length
      | .last _ rest1 => rest1.length ≤ rest.length
      | .fail e => e ≠ .outOfFuel := by
  induction fuel with
  | zero => intro line rest field h; omega
  | succ fuel ih =>
    intro line rest field hlen
    rw [quotedLoop]
    cases hi : indexByte 34 line with
    | some i =>
      have hil := indexByte_lt 34 line i hi
      simp only []
      by_cases h1 : (line.drop (i + 1)).head? = some 34
      · simp only [h1, if_true]
        have hm : ((line.drop (i + 1)).drop 1).length + rest.length < fuel := by
          simp only [List.length_drop]; omega
        have := ih ((line.drop (i + 1)).drop 1) rest (field ++ line.take i ++ [34]) hm
        revert this
        cases quotedLoop fuel ((line.drop (i + 1)).drop 1) rest (field ++ line.take i ++ [34]) with
        | next f l r =>
          simp only [List.length_drop]
          intro h; omega
        | last f r => exact id
        | fail e => exact id
      · simp only [h1, if_false]
        by_cases h2 : (line.drop (i + 1)).head? = some Comma
        · simp only [h2, if_true, List.length_drop]
          omega
        · simp only [h2, if_false]
          by_cases h3 : lengthNL (line.drop (i + 1)) = (line.drop (i + 1)).length
          · simp only [h3, if_true]; exact le_refl _
          · simp only [h3, if_false]; decide
    | none =>
      simp only []
      by_cases hpos : line.length > 0
      · simp only [hpos, if_true, readLine_eq_lineOf]
        have h1 := lineOf_le rest
        have hm : (lineOf rest).1.length + (lineOf rest).2.length < fuel := by omega
        have := ih (lineOf rest).1 (lineOf rest).2 (field ++ line) hm
        revert this
        cases quotedLoop fuel (lineOf rest).1 (lineOf rest).2 (field ++ line) with
        | next f l r => intro h; omega
        | last f r => intro h; omega
        | fail e => exact id
      · simp only [hpos, if_false]; decide

/-- The loop over the fields of a record stays within its bound whenever the
bound exceeds the bytes left, and leaves no more input than it got. -/
theorem parseFields_total (fuel : Nat) :
    ∀ (line rest : GoString) (fields : List GoString), line.length + rest.length < fuel →
      match parseFields fuel line rest fields with
      | .ok (_, rest1) => rest1.length ≤ rest.length
      | .error e => e ≠ .outOfFuel := by
  induction fuel with
  | zero => intro line rest fields h; omega
  | succ fuel ih =>
    intro line rest fields hlen
    rw [parseFields]
    by_cases hq : line.length = 0 ∨ line.head? ≠ some 34
    · simp only [hq, if_true]
      cases hi : indexByte Comma line with
      | some i =>
        have hil := indexByte_lt Comma line i hi
        simp only []
        by_cases hb : (indexByte 34 (line.take i)).isSome = true
        · simp only [hb, if_true]; decide
        · simp only [hb, if_false]
          exact ih (line.drop (i + 1)) rest _ (by simp only [List.length_drop]; omega)
      | none =>
        simp only []
        by_cases hb : (indexByte 34 (line.take (line.length - lengthNL line))).isSome = true
        · simp only [hb, if_true]; decide
        · simp only [hb, if_false]; exact le_refl _
    · simp only [hq, if_false]
      have hpos : line.length ≠ 0 := fun h => hq (Or.inl h)
      have hm : (line.drop 1).length + rest.length < line.length + rest.length + 1 := by
        simp only [List.length_drop]; omega
      have := quotedLoop_total (line.length + rest.length + 1) (line.drop 1) rest [] hm
      revert this
      cases quotedLoop (line.length + rest.length + 1) (line.drop 1) rest [] with
      | next f l r =>
        intro h
        simp only [List.length_drop] at h
        have := ih l r (fields ++ [f]) (by omega)
        dsimp only
        revert this
        cases parseFields fuel l r (fields ++ [f]) with
        | ok res => intro h2; exact le_trans h2 h.2
        | error e => exact id
      | last f r => exact id
      | fail e => exact id

/-- The method `readRecord` stays within the bounds of its loops on every
input, and a record it returns leaves strictly less input. -/
theorem readRecord_total (input : GoString) :
    match readRecord input with
    | .ok none => True
    | .ok (some (_, rest)) => rest.length < input.length
    | .error e => e ≠ .outOfFuel := by
  obtain ⟨r, hr, hb⟩ := nextLine_total (input.length + 1) input (by omega)
  unfold readRecord
  rw [hr]
  cases r with
  | none => trivial
  | some lr =>
    obtain ⟨line, rest⟩ := lr
    obtain ⟨h1, h2⟩ := hb line rest rfl
    simp only []
    have := parseFields_total (line.length + rest.length + 1) line rest [] (by omega)
    revert this
    cases parseFields (line.length + rest.length + 1) line rest [] with
    | ok res => intro h; exact lt_of_le_of_lt h h2
    | error e => exact id

/-- The loop of `ReadAll` stays within its bound whenever the bound exceeds
the bytes of the input. -/
theorem readAllLoop_total (fuel : Nat) :
    ∀ (input : GoString) (records : List (List GoString)), input.length < fuel →
      readAllLoop fuel input records ≠ .error .outOfFuel := by
  induction fuel with
  | zero => intro input records h; omega
  | succ fuel ih =>
    intro input records hlen
    rw [readAllLoop]
    have := readRecord_total input
    revert this
    cases readRecord input with
    | error e =>
      intro h hcon
      simp only [Except.error.injEq] at hcon
      exact h hcon
    | ok r =>
      cases r with
      | none => intro _ hcon; cases hcon
      | some res =>
        obtain ⟨rec, rest⟩ := res
        intro h
        exact ih rest _ (by simp only [] at h; omega)

/-- The method `ReadAll` is total: on every input, well-formed or not, its loops end
within the bounds of this model, so the result is the records or one of the
two errors of the package. -/
theorem ReadAll_total (input : GoString) :
    (∃ records, ReadAll input = .ok records) ∨ ReadAll input = .error .ErrBareQuote
      ∨ ReadAll input = .error .ErrQuote := by
  have h := readAllLoop_total (input.length + 1) input [] (by omega)
  unfold ReadAll
  revert h
  cases readAllLoop (input.length + 1) input [] with
  | ok records => intro _; exact Or.inl ⟨records, rfl⟩
  | error e =>
    cases e with
    | ErrBareQuote => intro _; exact Or.inr (Or.inl rfl)
    | ErrQuote => intro _; exact Or.inr (Or.inr rfl)
    | outOfFuel => intro h; exact absurd rfl h

/-! ### The properties of the pipeline -/

/-- C1 (field-order preservation): when the intermediate file can be created,
the rows `main` hands to the CSV writer are the header row followed by one
row per event, `N + 1` rows in all, and the row of event `i` is the
22-element list of the destination identifier and the 21 fields of that
event in the fixed order; nothing is reordered, filtered, duplicated or
dropped. -/
theorem rows_handed_in_order (env : Env) (dbName : GoString) (events : List Event)
    (hcreate : env.createOk = true) :
    ∃ w : Writer, (main env dbName events).writer = some w ∧
      w.handed = headers :: events.map (record dbName) ∧
      w.handed.length = events.length + 1 ∧
      ∀ (i : Nat) (h : i < events.length),
        w.handed.get? (i + 1) = some
          [dbName, events[i].Level, events[i].Date, events[i].ApplicationName,
           events[i].ApplicationPresentation, events[i].Event, events[i].EventPresentation,
           events[i].User, events[i].UserName, events[i].Computer, events[i].Metadata,
           events[i].MetadataPresentation, events[i].Comment, events[i].Data,
           events[i].DataPresentation, events[i].TransactionStatus, events[i].TransactionID,
           events[i].Connection, events[i].Session, events[i].ServerName, events[i].Port,
           events[i].SyncPort] := by
  refine ⟨writeRows (NewWriter { content := [], space := env.space }) dbName events, ?_, ?_, ?_, ?_⟩
  · simp [main, hcreate]
  · rw [writeRows_handed]; simp [NewWriter]
  · rw [writeRows_handed]; simp [NewWriter]
  · intro i h
    rw [writeRows_handed]
    simp [NewWriter, List.getElem?_cons_succ, List.getElem?_map, h, record]

/-- C1 at the scenario event: the file can be created and the rows handed to
the writer are the header and the row of the one event. -/
theorem rows_handed_in_order_witness :
    (healthy 1000).createOk = true ∧
    ∃ w : Writer,
      (main (healthy 1000) (utf8 "mybase") [unmarshalEvent scenarioElement]).writer = some w ∧
      w.handed = headers :: [unmarshalEvent scenarioElement].map (record (utf8 "mybase")) :=
  ⟨rfl, (rows_handed_in_order (healthy 1000) (utf8 "mybase") [unmarshalEvent scenarioElement]
    rfl).imp (fun _ h => ⟨h.1, h.2.1⟩)⟩

set_option maxRecDepth 100000 in
/-- C2 as stated fails: the row of an event whose comment is `a\r\nb` is
written and read back with the comment `a\nb`, which is another row. -/
theorem roundtrip_counterexample :
    ReadAll (Writer.Flush (writeRows (NewWriter { content := [], space := 1000 })
        (utf8 "db") [crlfEvent])).w.wr.content
      = .ok [headers, record (utf8 "db") lfEvent] ∧
    record (utf8 "db") lfEvent ≠ record (utf8 "db") crlfEvent := by
  constructor
  · decide!
  · decide!

/-- C2 amended (round trip up to `\r\n`): for all rows of 22 fields each,
when the device has room for the text, writing the header and the rows with
the `;`-delimited writer, flushing, and reading the file with `ReadAll`
returns `N + 1` records; after the first, they are the `N` rows in order,
every field with each carriage return that stands directly before a line
feed removed, so every row none of whose fields contains `\r\n` comes back
equal to the original, whatever else its fields contain. -/
theorem roundtrip_amended (rows : List (List GoString)) (space : Nat)
    (h22 : ∀ r ∈ rows, r.length = 22)
    (hroom : (csvBytes (headers :: rows)).length ≤ space) :
    ∃ records : List (List GoString),
      ReadAll (Writer.Flush (rows.foldl Writer.Write
          ((NewWriter { content := [], space := space }).Write headers))).w.wr.content
        = .ok records ∧
      records.length = rows.length + 1 ∧
      records.drop 1 = rows.map (fun r => r.map dropCR) ∧
      (∀ r ∈ rows, (∀ f ∈ r, ∀ a b : GoString, f ≠ a ++ 13 :: 10 :: b) →
        r.map dropCR = r) := by
  have hcontent := (foldl_Write_complete (headers :: rows) space hroom).2.2
  rw [List.foldl_cons] at hcontent
  have hrows : ∀ r ∈ headers :: rows, r ≠ [] ∧ r ≠ [[]] := by
    intro r hr
    have hlen : r.length = 22 := by
      rcases List.mem_cons.mp hr with h | h
      · rw [h]; rfl
      · exact h22 r h
    constructor
    · intro h; rw [h] at hlen; simp at hlen
    · intro h; rw [h] at hlen; simp at hlen
  refine ⟨(headers :: rows).map (fun r => r.map dropCR), ?_, by simp, by simp, ?_⟩
  · rw [hcontent, ReadAll_csvBytes _ hrows]
  · intro r _ hf
    calc r.map dropCR = r.map id :=
          List.map_congr_left (fun f hf' => dropCR_eq_self f (hf f hf'))
      _ = r := List.map_id r

/-- C2 amended, at the two rows of the events with comment `a\r\nb` and
`a\nb`: there is room for the text, the rows have 22 fields, and both come
back as the row with comment `a\nb`. -/
theorem roundtrip_amended_witness :
    ∃ records : List (List GoString),
      ReadAll (Writer.Flush ([record (utf8 "db") crlfEvent, record (utf8 "db") lfEvent].foldl
          Writer.Write ((NewWriter { content := [], space := 1000 }).Write headers))).w.wr.content
        = .ok records ∧
      records.drop 1 = [record (utf8 "db") lfEvent, record (utf8 "db") lfEvent] :=
  (roundtrip_amended [record (utf8 "db") crlfEvent, record (utf8 "db") lfEvent] 1000
    (by decide) (by decide!)).imp
    (fun _ h => ⟨h.1, h.2.2.1.trans (by decide!)⟩)

set_option maxRecDepth 100000 in
/-- C3 fails on the code at the scenario: when the write loop has finished
and the Store Loader reads the intermediate file, nothing has been flushed;
the file is empty and the header and the row are still in the buffer of the
writer, so `ReadAll` returns no record, `records[1:]` panics after the batch
was prepared, and the text reaches the file only by the deferred `Flush`
when `main` is left. -/
theorem flush_deferred_scenario :
    scenarioRun.fileAtRead = [] ∧
    scenarioRun.writer.map (fun w => (w.w.err, w.w.buf))
      = some (false, utf8 headerLine
          ++ utf8 "mybase;Error;2024-01-01T10:00:00;;;;;;;;;;;;;;;;;;1541;\n") ∧
    ReadAll scenarioRun.fileAtRead = .ok [] ∧
    scenarioRun.trace =
      { stdout := [Msg.written (utf8 "mybase_eventlog.csv")]
        calls := [Call.Open true, Call.Exec (createQuery (utf8 "mybase_events")) true,
                  Call.PrepareBatch (insertQuery (utf8 "mybase_events")) true]
        panic := some (Panic.sliceBounds 1 0) } ∧
    scenarioRun.fileAtExit
      = utf8 headerLine ++ utf8 "mybase;Error;2024-01-01T10:00:00;;;;;;;;;;;;;;;;;;1541;\n" := by
  decide!

/-- C4 (atomic commit): in the batch loop of the Store Loader over any rows
and with any outcomes of `Append`, if a call of `Append` fails then `Send` is
never called, the run ends with the report of that failure and the table is
not reported as loaded; and if `Send` is called, then before it every one of
the `N` rows was appended successfully, in order, and nothing else was. -/
theorem atomic_commit (env : Env) (table : GoString) (rows : List (List GoString)) :
    ((∃ args, Call.Append args false ∈ (batchLoop env table 0 rows).calls) →
      (∀ ok, Call.Send ok ∉ (batchLoop env table 0 rows).calls) ∧
      (∃ n, (batchLoop env table 0 rows).stdout = [Msg.appendFailed n]) ∧
      Msg.loaded table ∉ (batchLoop env table 0 rows).stdout) ∧
    (∀ ok, Call.Send ok ∈ (batchLoop env table 0 rows).calls →
      (∀ r ∈ rows, 22 ≤ r.length) ∧
      (batchLoop env table 0 rows).calls
        = rows.map (fun r => Call.Append (r.take 22) true) ++ [Call.Send ok]) := by
  rcases batchLoop_cases env table rows 0 with
    ⟨hall, heq⟩ | ⟨k, hk, hfail, heq⟩ | ⟨k, hk, hshort, heq⟩
  · rw [heq]
    constructor
    · rintro ⟨args, hmem⟩
      rcases List.mem_append.mp hmem with h | h
      · exact absurd h (failed_not_mem_appends _ _)
      · simp at h
    · intro ok hmem
      rcases List.mem_append.mp hmem with h | h
      · exact absurd h (send_not_mem_appends _ _)
      · have hok : ok = env.sendOk := by simpa using h
        subst hok
        exact ⟨hall, rfl⟩
  · rw [heq]
    constructor
    · intro _
      refine ⟨?_, ⟨0 + k + 1, rfl⟩, ?_⟩
      · intro ok hmem
        rcases List.mem_append.mp hmem with h | h
        · exact absurd h (send_not_mem_appends _ _)
        · simp at h
      · simp
    · intro ok hmem
      rcases List.mem_append.mp hmem with h | h
      · exact absurd h (send_not_mem_appends _ _)
      · simp at h
  · rw [heq]
    constructor
    · rintro ⟨args, hmem⟩
      exact absurd hmem (failed_not_mem_appends _ _)
    · intro ok hmem
      exact absurd hmem (send_not_mem_appends _ _)

/-- C5 (row index of a coercion failure): when the file parses into a header
and data rows, the data rows before the `k`-th (counted from 1, the header
not counted) have their 22 fields and are appended without error, and the
`k`-th has its 22 fields and `Append` fails on it, then the Store Loader
reports the index `k`, has appended exactly the rows 1 to `k - 1`, calls
`Append` on row `k` last, and neither appends a later row nor sends. -/
theorem append_failure_index (env : Env) (dbName fileNow : GoString) (hdr : List GoString)
    (rows : List (List GoString)) (k : Nat)
    (hconn : env.connectOk = true) (hexec : env.execOk = true) (hopen : env.openOk = true)
    (hprep : env.prepareOk = true) (hread : ReadAll fileNow = .ok (hdr :: rows))
    (hk : 1 ≤ k) (hkN : k ≤ rows.length)
    (hlen : ∀ j, j < k → 22 ≤ (rows.getD j []).length)
    (hok : ∀ j, j + 1 < k → env.appendOk j ((rows.getD j []).take 22) = true)
    (hfail : env.appendOk (k - 1) ((rows.getD (k - 1) []).take 22) = false) :
    load env dbName fileNow =
      { stdout := [Msg.appendFailed k]
        calls := [Call.Open true, Call.Exec (createQuery (tableName dbName)) true,
                  Call.PrepareBatch (insertQuery (tableName dbName)) true]
          ++ (rows.take (k - 1)).map (fun r => Call.Append (r.take 22) true)
          ++ [Call.Append ((rows.getD (k - 1) []).take 22) false]
        panic := none } := by
  have key : ∀ (rs : List (List GoString)) (i m : Nat), m < rs.length →
      (∀ j, j ≤ m → 22 ≤ (rs.getD j []).length) →
      (∀ j, j < m → env.appendOk (i + j) ((rs.getD j []).take 22) = true) →
      env.appendOk (i + m) ((rs.getD m []).take 22) = false →
      batchLoop env (tableName dbName) i rs =
        { stdout := [Msg.appendFailed (i + m + 1)]
          calls := (rs.take m).map (fun r => Call.Append (r.take 22) true)
            ++ [Call.Append ((rs.getD m []).take 22) false]
          panic := none } := by
    intro rs
    induction rs with
    | nil => intro i m hm; simp at hm
    | cons r rest ih =>
      intro i m hm hl ho hf
      have hr : 22 ≤ r.length := by simpa using hl 0 (Nat.zero_le _)
      cases m with
      | zero =>
        have hf0 : env.appendOk i (r.take 22) = false := by simpa using hf
        simp [batchLoop, appendArgs_of_le r hr, hf0]
      | succ m =>
        have ho0 : env.appendOk i (r.take 22) = true := by simpa using ho 0 (Nat.succ_pos _)
        have := ih (i + 1) m (by simpa using hm)
          (fun j hj => by simpa using hl (j + 1) (by omega))
          (fun j hj => by
            have := ho (j + 1) (by omega)
            simpa [Nat.add_assoc, Nat.add_comm 1 j] using this)
          (by simpa [Nat.add_assoc, Nat.add_comm 1 m] using hf)
        simp [batchLoop, appendArgs_of_le r hr, ho0, this, Nat.add_assoc, Nat.add_comm 1 m]
  obtain ⟨m, rfl⟩ : ∃ m, k = m + 1 := ⟨k - 1, by omega⟩
  rw [load_of_read env dbName fileNow hdr rows hconn hexec hopen hprep hread,
    key rows 0 m (by omega) (fun j hj => hlen j (by omega))
      (fun j hj => by simpa using hok j (by omega)) (by simpa using hfail)]
  simp

set_option maxRecDepth 100000 in
/-- C5 on a file of three data rows where `Append` fails on the second: the
index reported is 2, row 1 was appended, row 3 was not, nothing was sent. -/
theorem append_failure_index_witness :
    load failSecond (utf8 "db") threeRowFile =
      { stdout := [Msg.appendFailed 2]
        calls := [Call.Open true, Call.Exec (createQuery (tableName (utf8 "db"))) true,
                  Call.PrepareBatch (insertQuery (tableName (utf8 "db"))) true,
                  Call.Append (sampleRow "a") true, Call.Append (sampleRow "b") false]
        panic := none } :=
  append_failure_index failSecond (utf8 "db") threeRowFile [utf8 "h"]
    [sampleRow "a", sampleRow "b", sampleRow "c"] 2 rfl rfl rfl rfl (by rfl) (by decide)
    (by decide)
    (fun j hj => by
      have hj2 : j < 2 := hj
      interval_cases j <;> decide)
    (fun j hj => by
      have hj0 : j = 0 := by omega
      subst hj0; rfl)
    (by rfl)

set_option maxRecDepth 100000 in
/-- C6 (positional field-order invariant): the 22 names stand in one order,
without duplicates, in the CSV header; in every data row (position 0 holds
the destination identifier, position `k > 0` the field of the event named at
position `k` of the header); in the column list of the `CREATE TABLE`
statement that a run of `main` hands to `conn.Exec`, where every column is
`String` except `Date` (`DateTime`) and `Port` and `SyncPort` (`UInt16`); in
the column list of the `INSERT` statement that the run hands to
`conn.PrepareBatch`; and in the arguments of every call of `Append` of the
batch loop, which are `record[0]` to `record[21]` of a row, in this order.
The two statements are read as the server reads them, for a destination
identifier without a parenthesis, and the run does hand them over: the
first whenever the file is created and the connection opens, the second
whenever moreover the table is created and the file is opened and parsed. -/
theorem field_order_invariant :
    headerNames =
      ["DatabaseName", "Level", "Date", "ApplicationName", "ApplicationPresentation",
       "Event", "EventPresentation", "User", "UserName", "Computer", "Metadata",
       "MetadataPresentation", "Comment", "Data", "DataPresentation", "TransactionStatus",
       "TransactionID", "Connection", "Session", "ServerName", "Port", "SyncPort"] ∧
    headerNames.Nodup ∧ headerNames.length = 22 ∧
    headers = headerNames.map utf8 ∧
    (∀ (dbName : GoString) (event : Event),
      (record dbName event).length = 22 ∧
      (record dbName event).get? 0 = some dbName ∧
      ∀ k : Fin 22, k.val ≠ 0 →
        (record dbName event).get? k.val = (headerNames.get? k.val).bind (fieldOf event)) ∧
    (∀ (env : Env) (dbName : GoString) (events : List Event) (query : GoString) (ok : Bool),
      Call.Exec query ok ∈ (main env dbName events).trace.calls → 40 ∉ dbName →
        sqlColumns query = headerNames.map (fun name =>
          [utf8 name, utf8 (if name = "Date" then "DateTime"
            else if name = "Port" ∨ name = "SyncPort" then "UInt16" else "String")])) ∧
    (∀ (env : Env) (dbName : GoString) (events : List Event) (query : GoString) (ok : Bool),
      Call.PrepareBatch query ok ∈ (main env dbName events).trace.calls → 40 ∉ dbName →
        sqlColumns query = headerNames.map (fun name => [utf8 name])) ∧
    (∀ (env : Env) (dbName : GoString) (events : List Event),
      env.createOk = true → env.connectOk = true →
        Call.Exec (createQuery (tableName dbName)) env.execOk
          ∈ (main env dbName events).trace.calls) ∧
    (∀ (env : Env) (dbName : GoString) (events : List Event),
      env.createOk = true → env.connectOk = true → env.execOk = true → env.openOk = true →
        (∃ records, ReadAll (main env dbName events).fileAtRead = .ok records) →
        Call.PrepareBatch (insertQuery (tableName dbName)) env.prepareOk
          ∈ (main env dbName events).trace.calls) ∧
    (∀ (env : Env) (table : GoString) (rows : List (List GoString)) (args : List GoString)
        (ok : Bool),
      Call.Append args ok ∈ (batchLoop env table 0 rows).calls →
        ∃ r ∈ rows, args.length = 22 ∧ ∀ k : Fin 22, args.get? k.val = r.get? k.val) ∧
    (∀ (rec args : List GoString), appendArgs rec = .ok args →
      args.length = 22 ∧ ∀ k : Fin 22, args.get? k.val = rec.get? k.val) ∧
    (∀ (dbName : GoString) (event : Event),
      appendArgs (record dbName event) = .ok (record dbName event)) := by
  have hbind : ∀ (rec args : List GoString), appendArgs rec = .ok args →
      args.length = 22 ∧ ∀ k : Fin 22, args.get? k.val = rec.get? k.val := by
    intro rec args h
    obtain ⟨hl, rfl⟩ := (appendArgs_ok_iff rec args).mp h
    refine ⟨by simp [List.length_take]; omega, ?_⟩
    intro k
    simp [List.getElem?_take, k.isLt]
  refine ⟨rfl, by decide, rfl, rfl, ?_, ?_, ?_, ?_, ?_, ?_, hbind, fun _ _ => rfl⟩
  · intro dbName event
    refine ⟨rfl, rfl, ?_⟩
    intro k hk
    fin_cases k
    · exact absurd rfl hk
    all_goals rfl
  · intro env dbName events query ok hmem hname
    rw [(main_calls_query env dbName events).1 query ok hmem, sqlColumns_createQuery dbName hname]
  · intro env dbName events query ok hmem hname
    rw [(main_calls_query env dbName events).2 query ok hmem, sqlColumns_insertQuery dbName hname]
  · intro env dbName events hc hconn
    exact main_calls_exec env dbName events hc hconn
  · intro env dbName events hc hconn hexec hopen hread
    exact main_calls_prepare env dbName events hc hconn hexec hopen hread
  · intro env table rows args ok hmem
    obtain ⟨r, hr, hl, rfl⟩ := batchLoop_append_mem env table rows 0 args ok hmem
    exact ⟨r, hr, hbind r _ (appendArgs_of_le r hl)⟩

/-- C6 at the identifier `mybase`: the run of the scenario hands the
`CREATE TABLE` statement to `conn.Exec`, and its column list is the 22 names
with their types. -/
theorem field_order_invariant_witness :
    Call.Exec (createQuery (tableName (utf8 "mybase"))) true ∈ scenarioRun.trace.calls ∧
    sqlColumns (createQuery (tableName (utf8 "mybase"))) = headerNames.map (fun name =>
      [utf8 name, utf8 (if name = "Date" then "DateTime"
        else if name = "Port" ∨ name = "SyncPort" then "UInt16" else "String")]) :=
  ⟨field_order_invariant.2.2.2.2.2.2.2.1 (healthy 1000) (utf8 "mybase")
      [unmarshalEvent scenarioElement] rfl rfl,
    field_order_invariant.2.2.2.2.2.1 (healthy 1000) (utf8 "mybase")
      [unmarshalEvent scenarioElement] _ true
      (field_order_invariant.2.2.2.2.2.2.2.1 (healthy 1000) (utf8 "mybase")
        [unmarshalEvent scenarioElement] rfl rfl) (by decide)⟩

set_option maxRecDepth 100000 in
/-- C7 (missing-field tolerance): for every event element, taken as a partial
assignment of the 21 named fields, the row built for it has 22 positions,
position 0 holds the destination identifier, and the position of a field `X`
holds the empty string when the element lacks `X` and the text of `X` when it
has it; building the row cannot fail.  The element with only `Level`, `Date`
and `Port`, under the identifier `mybase`, is written as the line
`mybase;Error;2024-01-01T10:00:00`, 18 semicolons, `1541`, a semicolon, and
that line follows the header in the file `main` leaves. -/
theorem missing_field_tolerance (dbName : GoString) (el : Element) (k : Nat) (X : String)
    (hk : 1 ≤ k) (hX : headerNames.get? k = some X) :
    (record dbName (unmarshalEvent el)).length = 22 ∧
    (record dbName (unmarshalEvent el)).get? 0 = some dbName ∧
    (el X = none → (record dbName (unmarshalEvent el)).get? k = some []) ∧
    (∀ text, el X = some text → (record dbName (unmarshalEvent el)).get? k = some text) ∧
    (NewWriter { content := [], space := 1000 }).Write
        (record (utf8 "mybase") (unmarshalEvent scenarioElement))
      = { w := { err := false
                 buf := utf8 "mybase;Error;2024-01-01T10:00:00" ++ List.replicate 18 Comma
                          ++ utf8 "1541;\n"
                 wr := { content := [], space := 1000 } }
          handed := [record (utf8 "mybase") (unmarshalEvent scenarioElement)] } ∧
    (main (healthy 1000) (utf8 "mybase") [unmarshalEvent scenarioElement]).fileAtExit
      = utf8 ("DatabaseName;Level;Date;ApplicationName;ApplicationPresentation;Event;"
          ++ "EventPresentation;User;UserName;Computer;Metadata;MetadataPresentation;Comment;"
          ++ "Data;DataPresentation;TransactionStatus;TransactionID;Connection;Session;"
          ++ "ServerName;Port;SyncPort\n")
        ++ utf8 "mybase;Error;2024-01-01T10:00:00;;;;;;;;;;;;;;;;;;1541;\n" := by
  refine ⟨rfl, rfl, ?_, ?_, by rfl, by rfl⟩
  · intro h
    rw [record_unmarshal_get dbName el k X hk hX]
    simp [childText, h]
  · intro text h
    rw [record_unmarshal_get dbName el k X hk hX]
    simp [childText, h]

/-- C7 at the scenario element, which lacks `SyncPort` (position 21). -/
theorem missing_field_tolerance_witness :
    (record (utf8 "mybase") (unmarshalEvent scenarioElement)).get? 21 = some [] :=
  (missing_field_tolerance (utf8 "mybase") scenarioElement 21 "SyncPort" (by decide)
    (by decide)).2.2.1 (by decide)

set_option maxRecDepth 100000 in
/-- C8 fails on the code: rows with too few fields and files without a row
are parsed without error and then crash the bind loop.  In the run of one
event with a comment of 5000 bytes, the file the Store Loader reads is the
first 4096 bytes of the text, cut inside the comment; it parses into the
header and a row of 13 fields, and binding panics at `record[13]`.  In the
scenario run the file read is empty, it parses into no record, and
`records[1:]` panics.  A file with a data row of two fields panics at
`record[2]`.  Only a data row of more than 22 fields is tolerated: it is
bound by its first 22. -/
theorem short_row_panics :
    truncatedRun.fileAtRead.length = 4096 ∧
    (ReadAll truncatedRun.fileAtRead).toOption.map (fun records => records.map List.length)
      = some [22, 13] ∧
    truncatedRun.trace.panic = some (Panic.indexOutOfRange 13 13) ∧
    scenarioRun.fileAtRead = [] ∧ ReadAll [] = .ok [] ∧
    scenarioRun.trace.panic = some (Panic.sliceBounds 1 0) ∧
    ReadAll (utf8 "h\nmybase;Error\n") = .ok [[utf8 "h"], [utf8 "mybase", utf8 "Error"]] ∧
    load (healthy 0) (utf8 "mybase") (utf8 "h\nmybase;Error\n") =
      { stdout := []
        calls := [Call.Open true, Call.Exec (createQuery (utf8 "mybase_events")) true,
                  Call.PrepareBatch (insertQuery (utf8 "mybase_events")) true]
        panic := some (Panic.indexOutOfRange 2 2) } ∧
    load (healthy 0) (utf8 "mybase") (utf8 "h\na;;;;;;;;;;;;;;;;;;;;;;x\n") =
      { stdout := [Msg.loaded (utf8 "mybase_events")]
        calls := [Call.Open true, Call.Exec (createQuery (utf8 "mybase_events")) true,
                  Call.PrepareBatch (insertQuery (utf8 "mybase_events")) true,
                  Call.Append (sampleRow "a") true, Call.Send true]
        panic := none } := by
  decide!

set_option maxRecDepth 100000 in
/-- C9 fails on the code: on a device that accepts 100 bytes, the write of
the row fails inside the loop (the error of the writer is set and the file
holds the first 100 bytes of the header), yet `main` prints that the data
were written, enters the Store Loader, reads the truncated file as a lone
header, sends an empty batch and prints that the data were loaded. -/
theorem write_failure_swallowed :
    diskFullRun.writer.map (fun w => w.w.err) = some true ∧
    diskFullRun.fileAtRead = (utf8 headerLine).take 100 ∧
    diskFullRun.fileAtExit = (utf8 headerLine).take 100 ∧
    diskFullRun.trace =
      { stdout := [Msg.written (utf8 "db_eventlog.csv"), Msg.loaded (utf8 "db_events")]
        calls := [Call.Open true, Call.Exec (createQuery (utf8 "db_events")) true,
                  Call.PrepareBatch (insertQuery (utf8 "db_events")) true, Call.Send true]
        panic := none } := by
  decide!

/-- C10 (the complete file is well-formed): when the intermediate file holds
the complete output of the writer for the `N` events, that is the file after
the flush, on a device with room for it, then `ReadAll` returns `N + 1`
records of exactly 22 fields each; the slice `records[1:]` is in range and
has `N` rows, for each of which the arguments `record[0]` to `record[21]`
are in bounds; the Store Loader does not panic; and for `N = 0`, when
connect, create table, open and prepare succeed, no row is appended and the
batch is still sent. -/
theorem complete_file_binds (env : Env) (dbName : GoString) (events : List Event)
    (space : Nat) (fileNow : GoString)
    (hroom : (csvBytes (headers :: events.map (record dbName))).length ≤ space)
    (hfile : fileNow
      = (Writer.Flush (writeRows (NewWriter { content := [], space := space })
          dbName events)).w.wr.content) :
    ∃ records : List (List GoString),
      ReadAll fileNow = .ok records ∧
      records.length = events.length + 1 ∧
      (∀ r ∈ records, r.length = 22) ∧
      (∃ rows, sliceFrom1 records = .ok rows ∧ rows.length = events.length ∧
        ∀ r ∈ rows, ∃ args, appendArgs r = .ok args) ∧
      (load env dbName fileNow).panic = none ∧
      (events = [] → env.connectOk = true → env.execOk = true → env.openOk = true →
        env.prepareOk = true →
        (load env dbName fileNow).calls
          = [Call.Open true, Call.Exec (createQuery (tableName dbName)) true,
             Call.PrepareBatch (insertQuery (tableName dbName)) true,
             Call.Send env.sendOk]) := by
  have hcontent := (writeRows_complete dbName events space hroom).2.2
  have hlen22 : ∀ r ∈ headers :: events.map (record dbName), r.length = 22 := by
    intro r hr
    rcases List.mem_cons.mp hr with h | h
    · rw [h]; rfl
    · obtain ⟨e, _, rfl⟩ := List.mem_map.mp h
      rfl
  have hrows : ∀ r ∈ headers :: events.map (record dbName), r ≠ [] ∧ r ≠ [[]] := by
    intro r hr
    have hlen := hlen22 r hr
    constructor
    · intro h; rw [h] at hlen; simp at hlen
    · intro h; rw [h] at hlen; simp at hlen
  have hread : ReadAll fileNow
      = .ok (headers.map dropCR
          :: (events.map (record dbName)).map (fun r => r.map dropCR)) := by
    rw [hfile, hcontent, ReadAll_csvBytes _ hrows]
    simp
  have hdata : ∀ r ∈ (events.map (record dbName)).map (fun r => r.map dropCR),
      r.length = 22 := by
    intro r hr
    obtain ⟨r0, hr0, rfl⟩ := List.mem_map.mp hr
    rw [List.length_map]
    exact hlen22 r0 (List.mem_cons_of_mem _ hr0)
  refine ⟨_, hread, by simp, ?_, ?_, ?_, ?_⟩
  · intro r hr
    rcases List.mem_cons.mp hr with h | h
    · rw [h, List.length_map]; rfl
    · exact hdata r h
  · refine ⟨(events.map (record dbName)).map (fun r => r.map dropCR), by simp [sliceFrom1],
      by simp, ?_⟩
    intro r hr
    exact ⟨r.take 22, appendArgs_of_le r (by rw [hdata r hr])⟩
  · unfold load
    by_cases h1 : env.connectOk = true
    · by_cases h2 : env.execOk = true
      · by_cases h3 : env.openOk = true
        · by_cases h4 : env.prepareOk = true
          · simp only [h1, h2, h3, h4, hread, sliceFrom1]
            simp only [Bool.not_true, Bool.false_eq_true, if_false, List.length_cons,
              Nat.le_add_left, if_true, List.drop_succ_cons, List.drop_zero]
            exact batchLoop_no_panic env _ _ (fun r hr => by rw [hdata r hr]) 0
          · simp [h1, h2, h3, h4, hread]
        · simp [h1, h2, h3]
      · simp [h1, h2]
    · simp [h1]
  · intro hev h1 h2 h3 h4
    subst hev
    rw [load_of_read env dbName fileNow _ _ h1 h2 h3 h4 hread]
    cases hs : env.sendOk <;> simp [batchLoop, hs]

/-- C10 at the scenario event: the device has room for the text of the
header and the row, and the flushed file parses into two records. -/
theorem complete_file_binds_witness :
    ∃ records : List (List GoString),
      ReadAll (Writer.Flush (writeRows (NewWriter { content := [], space := 1000 })
          (utf8 "mybase") [unmarshalEvent scenarioElement])).w.wr.content = .ok records ∧
      records.length = 2 :=
  (complete_file_binds (healthy 1000) (utf8 "mybase") [unmarshalEvent scenarioElement] 1000 _
    (by decide!) rfl).imp (fun _ h => ⟨h.1, h.2.1⟩)

/-- The file the Store Loader reads is never the complete text: whenever the
file can be created and the device has room for the text of the header and
all rows, then after the write loop the writer has no error, its buffer is
not empty, the file followed by the buffer is the complete text, so the file
that `ReadAll` reads lacks the end of the text, and the file holds the
complete text only when `main` is left. -/
theorem file_incomplete_at_read (env : Env) (dbName : GoString) (events : List Event)
    (hcreate : env.createOk = true)
    (hroom : (csvBytes (headers :: events.map (record dbName))).length ≤ env.space) :
    ∃ w : Writer, (main env dbName events).writer = some w ∧
      w.w.err = false ∧ w.w.buf ≠ [] ∧
      (main env dbName events).fileAtRead ++ w.w.buf
        = csvBytes (headers :: events.map (record dbName)) ∧
      (main env dbName events).fileAtRead ≠ csvBytes (headers :: events.map (record dbName)) ∧
      (main env dbName events).fileAtExit = csvBytes (headers :: events.map (record dbName)) := by
  obtain ⟨herr, hout, hflush⟩ := writeRows_complete dbName events env.space hroom
  have hbuf : (writeRows (NewWriter { content := [], space := env.space }) dbName events).w.buf
      ≠ [] := by
    rw [writeRows_eq_foldl]
    refine foldl_Write_buf_ne _ (by simp) _ 0 ?_
    exact ⟨rfl, by simp [NewWriter], by simpa [NewWriter] using hroom⟩
  refine ⟨writeRows (NewWriter { content := [], space := env.space }) dbName events,
    by simp [main, hcreate], herr, hbuf, ?_, ?_, ?_⟩
  · simpa [main, hcreate, BufWriter.out] using hout
  · intro hcon
    have h2 : (main env dbName events).fileAtRead
        = (writeRows (NewWriter { content := [], space := env.space }) dbName events).w.wr.content := by
      simp [main, hcreate]
    rw [h2] at hcon
    rw [BufWriter.out, hcon] at hout
    exact hbuf (List.append_right_eq_self.mp hout)
  · simpa [main, hcreate] using hflush

/-- The scenario run: the file can be created, there is room for the text,
and the file read by the Store Loader is not the complete text. -/
theorem file_incomplete_at_read_witness :
    scenarioRun.fileAtRead
      ≠ csvBytes (headers :: [unmarshalEvent scenarioElement].map (record (utf8 "mybase"))) :=
  (file_incomplete_at_read (healthy 1000) (utf8 "mybase") [unmarshalEvent scenarioElement]
    rfl (by decide!)).elim (fun _ h => h.2.2.2.2.1)

/-- A data row with fewer than 22 fields makes the Store Loader panic: when
connect, create table, open and prepare succeed and the file parses into a
header and data rows the first of which has fewer than 22 fields, the run
ends, before any call of `Append` or `Send`, with the panic of the index
expression `record[len(record)]`. -/
theorem load_short_row (env : Env) (dbName fileNow : GoString) (hdr row : List GoString)
    (rest : List (List GoString))
    (hconn : env.connectOk = true) (hexec : env.execOk = true) (hopen : env.openOk = true)
    (hprep : env.prepareOk = true) (hread : ReadAll fileNow = .ok (hdr :: row :: rest))
    (hshort : row.length < 22) :
    load env dbName fileNow =
      { stdout := []
        calls := [Call.Open true, Call.Exec (createQuery (tableName dbName)) true,
                  Call.PrepareBatch (insertQuery (tableName dbName)) true]
        panic := some (Panic.indexOutOfRange row.length row.length) } := by
  rw [load_of_read env dbName fileNow hdr (row :: rest) hconn hexec hopen hprep hread]
  simp [batchLoop, appendArgs_of_lt row hshort]

set_option maxRecDepth 100000 in
/-- A file whose data row has two fields: the Store Loader panics at
`record[2]`. -/
theorem load_short_row_witness :
    load (healthy 0) (utf8 "mybase") (utf8 "h\nmybase;Error\n") =
      { stdout := []
        calls := [Call.Open true, Call.Exec (createQuery (tableName (utf8 "mybase"))) true,
                  Call.PrepareBatch (insertQuery (tableName (utf8 "mybase"))) true]
        panic := some (Panic.indexOutOfRange 2 2) } :=
  load_short_row (healthy 0) (utf8 "mybase") (utf8 "h\nmybase;Error\n")
    [utf8 "h"] [utf8 "mybase", utf8 "Error"] [] rfl rfl rfl rfl (by decide!) (by decide)

end Convert1c
